import Mathlib

set_option linter.unusedSectionVars false

/-!
Verification of the org-skin entity-discovery-and-graph-assembly core.

This file shallowly embeds the core of the repository:

* `src/org_skin/mapper/graph.py` (`OrgGraph` and its hand-rolled fallback
  algorithms — the optional external graph library branch is an external
  collaborator, the in-repo fallback algorithms are what is embedded);
* `src/org_skin/mapper/scanner.py` (`OrganizationMapper.scan` and its
  sub-scans), with the transport (`GitHubGraphQLClient.execute/paginate`)
  modelled as a stub supplying the successive query results, exactly as the
  scan-level claims demand;
* `src/org_skin/mapper/entities.py` (entity construction from remote
  payloads).

Python values coming from the remote API are dynamically typed; they are
embedded as the JSON-like type `JVal`.  Python dictionaries are embedded as
insertion-ordered association lists with first-key lookup and
overwrite-in-place assignment, which is exactly the observable behaviour of
CPython dicts.  Code that can raise (attribute access on `None`, enum
indexing, iteration over non-lists) is embedded in `Except String`.
-/

namespace OrgSkin

/-- JSON-like dynamic value, the shape of every remote payload the scanner
consumes.  Numbers are embedded as integers (the consumed fields are counts). -/
inductive JVal where
  | null
  | bool (b : Bool)
  | num (n : Int)
  | str (s : String)
  | arr (items : List JVal)
  | obj (fields : List (String × JVal))

instance : Inhabited JVal := ⟨.null⟩

mutual

/-- Structural boolean equality on `JVal` (decidable equality is derived
from it below; automatic derivation does not handle the nesting). -/
def jvalBeq : JVal → JVal → Bool
  | .null, .null => true
  | .bool a, .bool b => a == b
  | .num a, .num b => a == b
  | .str a, .str b => a == b
  | .arr as, .arr bs => jvalListBeq as bs
  | .obj fs, .obj gs => jvalFieldsBeq fs gs
  | _, _ => false

/-- Elementwise `jvalBeq` on lists. -/
def jvalListBeq : List JVal → List JVal → Bool
  | [], [] => true
  | a :: as, b :: bs => jvalBeq a b && jvalListBeq as bs
  | _, _ => false

/-- Elementwise `jvalBeq` on association lists. -/
def jvalFieldsBeq : List (String × JVal) → List (String × JVal) → Bool
  | [], [] => true
  | (k, v) :: fs, (k', v') :: gs => k == k' && jvalBeq v v' && jvalFieldsBeq fs gs
  | _, _ => false

end

mutual

theorem jvalBeq_eq : ∀ a b : JVal, jvalBeq a b = true ↔ a = b
  | .null, b => by cases b <;> simp [jvalBeq]
  | .bool x, b => by cases b <;> simp [jvalBeq]
  | .num x, b => by cases b <;> simp [jvalBeq]
  | .str x, b => by cases b <;> simp [jvalBeq]
  | .arr as, b => by
      cases b <;> simp [jvalBeq]
      case arr bs => exact jvalListBeq_eq as bs
  | .obj fs, b => by
      cases b <;> simp [jvalBeq]
      case obj gs => exact jvalFieldsBeq_eq fs gs

theorem jvalListBeq_eq : ∀ as bs : List JVal, jvalListBeq as bs = true ↔ as = bs
  | [], bs => by cases bs <;> simp [jvalListBeq]
  | a :: as, bs => by
      cases bs with
      | nil => simp [jvalListBeq]
      | cons b bs => simp [jvalListBeq, jvalBeq_eq a b, jvalListBeq_eq as bs]

theorem jvalFieldsBeq_eq : ∀ fs gs : List (String × JVal), jvalFieldsBeq fs gs = true ↔ fs = gs
  | [], gs => by cases gs <;> simp [jvalFieldsBeq]
  | (k, v) :: fs, gs => by
      cases gs with
      | nil => simp [jvalFieldsBeq]
      | cons g gs =>
          obtain ⟨k', v'⟩ := g
          simp [jvalFieldsBeq, jvalBeq_eq v v', jvalFieldsBeq_eq fs gs]

end

instance : DecidableEq JVal :=
  fun a b => decidable_of_iff (jvalBeq a b = true) (jvalBeq_eq a b)

/-- Python truthiness (`bool(v)`) on embedded JSON values: `None`, `False`,
`0`, `""`, `[]` and `\x7b\x7d` are falsy, everything else truthy. -/
def jTruthy : JVal → Bool
  | .null => false
  | .bool b => b
  | .num n => n != 0
  | .str s => s != ""
  | .arr items => !items.isEmpty
  | .obj fields => !fields.isEmpty

/-- Python `d[k]` / `d.get(k)` lookup on an association-list dictionary:
the first binding of the key (dictionaries built below have unique keys). -/
def dictGet {α β : Type} [DecidableEq α] : List (α × β) → α → Option β
  | [], _ => none
  | (k', v) :: rest, k => if k' = k then some v else dictGet rest k

/-- Python `d[k] = v` on a dictionary: overwrite in place if the key exists,
otherwise append the new binding (CPython preserves insertion order). -/
def dictInsert {α β : Type} [DecidableEq α] : List (α × β) → α → β → List (α × β)
  | [], k, v => [(k, v)]
  | (k', v') :: rest, k, v =>
      if k' = k then (k, v) :: rest else (k', v') :: dictInsert rest k v

/-- `defaultdict(list)` append: `d[k].append(v)`. -/
def dictAppend {α β : Type} [DecidableEq α] : List (α × List β) → α → β → List (α × List β)
  | [], k, v => [(k, [v])]
  | (k', vs) :: rest, k, v =>
      if k' = k then (k', vs ++ [v]) :: rest else (k', vs) :: dictAppend rest k v

/-- `d.get(k, [])` on a list-valued dictionary (also the read behaviour of a
`defaultdict(list)` that was never written at `k`). -/
def dictGetD {α β : Type} [DecidableEq α] (m : List (α × List β)) (k : α) : List β :=
  (dictGet m k).getD []

/-! ### Entity and relation enumerations (`mapper/entities.py`) -/

/-- `EntityType` from `mapper/entities.py`. -/
inductive EntityType where
  | organization | repository | team | member | issue | pull_request
  | project | discussion | branch | release
  deriving DecidableEq, Repr

/-- `RelationType` from `mapper/entities.py`. -/
inductive RelationType where
  | owns | member_of | maintains | authored | assigned_to | reviews
  | depends_on | forked_from | parent_of
  deriving DecidableEq, Repr

/-! ### The graph store (`mapper/graph.py`)

`OrgGraph` is embedded polymorphically in the id type `α`: the spec types ids
as strings, while the scanner stores whatever dynamic value the payload's
`id` field held, so the graph-level claims are stated at `α := String` and
the scanner instantiates `α := JVal`.  The node's `data` dictionary
(`entity.to_dict()`) is carried by no algorithm and no claim, so `GraphNode`
keeps only the fields the algorithms read: `id` and `entity_type`. -/

/-- `GraphNode` (identity fields only; see section comment). -/
structure GraphNode (α : Type) where
  id : α
  entity_type : EntityType
  deriving DecidableEq, Repr

/-- `GraphEdge` (the `metadata` dictionary is carried by no algorithm). -/
structure GraphEdge (α : Type) where
  source_id : α
  target_id : α
  relation_type : RelationType
  deriving DecidableEq, Repr

/-- State of `OrgGraph.__init__`: the node dictionary, the append-only edge
list, and the four derived indices maintained incrementally by every
mutation (hyperedges are mutated and read by no claim and omitted). -/
structure OrgGraph (α : Type) where
  nodes : List (α × GraphNode α)
  edges : List (GraphEdge α)
  nodesByType : List (EntityType × List α)
  edgesBySource : List (α × List (GraphEdge α))
  edgesByTarget : List (α × List (GraphEdge α))
  edgesByType : List (RelationType × List (GraphEdge α))

/-- A freshly constructed `OrgGraph()`. -/
def emptyGraph (α : Type) : OrgGraph α :=
  ⟨[], [], [], [], [], []⟩

variable {α : Type} [DecidableEq α]

/-- `OrgGraph.add_entity`: insert/overwrite the node by id and append the id
to the per-type index (unconditionally, on every call). -/
def add_entity (g : OrgGraph α) (eid : α) (etype : EntityType) : OrgGraph α :=
  { g with
    nodes := dictInsert g.nodes eid ⟨eid, etype⟩
    nodesByType := dictAppend g.nodesByType etype eid }

/-- `OrgGraph.add_relationship`: append the edge and update all three edge
indices; endpoint existence is not validated (dangling edges allowed). -/
def add_relationship (g : OrgGraph α) (src tgt : α) (rel : RelationType) : OrgGraph α :=
  let e : GraphEdge α := ⟨src, tgt, rel⟩
  { g with
    edges := g.edges ++ [e]
    edgesBySource := dictAppend g.edgesBySource src e
    edgesByTarget := dictAppend g.edgesByTarget tgt e
    edgesByType := dictAppend g.edgesByType rel e }

/-- `OrgGraph.get_entity`. -/
def get_entity (g : OrgGraph α) (eid : α) : Option (GraphNode α) :=
  dictGet g.nodes eid

/-- `OrgGraph.get_entities_by_type`: `[self.nodes[id] for id in index]`.
The Python list indexes `self.nodes` directly; here the lookup is kept total
with `filterMap`, and `get_entities_by_type_total` below certifies that on
every graph built through the public operations the lookup never misses, so
the two agree on all reachable states. -/
def get_entities_by_type (g : OrgGraph α) (t : EntityType) : List (GraphNode α) :=
  (dictGetD g.nodesByType t).filterMap (fun i => dictGet g.nodes i)

/-- Direction argument of `OrgGraph.get_neighbors`. -/
inductive Direction where
  | outgoing | incoming | both
  deriving DecidableEq, Repr

/-- Adding an element to a Python `set`, embedded as a deduplicating list
(iteration order of a CPython string set is hash-dependent; every claim
below is order-insensitive, so insertion order is used). -/
def setAdd (s : List α) (x : α) : List α :=
  if x ∈ s then s else s ++ [x]

/-- The `neighbor_ids` set built by `OrgGraph.get_neighbors`: target ids of
source-indexed edges and/or source ids of target-indexed edges. -/
def neighborIds (g : OrgGraph α) (eid : α) (dir : Direction) : List α :=
  let s : List α :=
    if dir = .outgoing ∨ dir = .both then
      (dictGetD g.edgesBySource eid).foldl (fun s e => setAdd s e.target_id) []
    else []
  if dir = .incoming ∨ dir = .both then
    (dictGetD g.edgesByTarget eid).foldl (fun s e => setAdd s e.source_id) s
  else s

/-- `OrgGraph.get_neighbors`:
`[self.nodes[id] for id in neighbor_ids if id in self.nodes]`. -/
def get_neighbors (g : OrgGraph α) (eid : α) (dir : Direction) : List (GraphNode α) :=
  (neighborIds g eid dir).filterMap (fun i => dictGet g.nodes i)

/-- The keys of the node dictionary. -/
def nodeKeys (g : OrgGraph α) : List α :=
  g.nodes.map (·.1)

/-- The `id` fields of the stored node values (used as a bound for
termination; on graphs built by the public operations it coincides with
`nodeKeys`). -/
def nodeIdVals (g : OrgGraph α) : List α :=
  g.nodes.map (fun p => p.2.id)

/-! ### Reachable graph states

Entities and relationships enter the store only through `add_entity` and
`add_relationship` (spec section 3, Lifecycle), so "every graph state" in
the claims quantifies over sequences of these operations applied to a fresh
graph. -/

/-- One public mutation of the graph store. -/
inductive GraphOp (α : Type) where
  | addEntity (eid : α) (etype : EntityType)
  | addRelationship (src tgt : α) (rel : RelationType)

/-- Apply one public mutation. -/
def applyOp (g : OrgGraph α) : GraphOp α → OrgGraph α
  | .addEntity eid t => add_entity g eid t
  | .addRelationship s t r => add_relationship g s t r

/-- The graph produced by a sequence of public mutations on a fresh store. -/
def buildGraph (ops : List (GraphOp α)) : OrgGraph α :=
  ops.foldl applyOp (emptyGraph α)

/-! ### Dictionary lemmas -/

theorem dictGet_dictInsert_self {β : Type} (m : List (α × β)) (k : α) (v : β) :
    dictGet (dictInsert m k v) k = some v := by
  induction m with
  | nil => simp [dictInsert, dictGet]
  | cons p rest ih =>
      obtain ⟨k', v'⟩ := p
      by_cases h : k' = k <;> simp [dictInsert, dictGet, h, ih]

theorem dictGet_dictInsert_ne {β : Type} (m : List (α × β)) (k k' : α) (v : β)
    (h : k' ≠ k) : dictGet (dictInsert m k v) k' = dictGet m k' := by
  have h' : k ≠ k' := Ne.symm h
  induction m with
  | nil => simp [dictInsert, dictGet, h']
  | cons p rest ih =>
      obtain ⟨k'', v''⟩ := p
      by_cases hk : k'' = k
      · subst hk
        simp [dictInsert, dictGet, h']
      · simp [dictInsert, dictGet, hk, ih]

theorem dictGet_dictAppend_self {β : Type} (m : List (α × List β)) (k : α) (v : β) :
    dictGet (dictAppend m k v) k = some (dictGetD m k ++ [v]) := by
  induction m with
  | nil => simp [dictAppend, dictGet, dictGetD]
  | cons p rest ih =>
      obtain ⟨k', vs⟩ := p
      by_cases h : k' = k <;> simp [dictAppend, dictGet, dictGetD, h, ih]

theorem dictGetD_dictAppend_self {β : Type} (m : List (α × List β)) (k : α) (v : β) :
    dictGetD (dictAppend m k v) k = dictGetD m k ++ [v] := by
  simp [dictGetD, dictGet_dictAppend_self]

theorem dictGet_dictAppend_ne {β : Type} (m : List (α × List β)) (k k' : α) (v : β)
    (h : k' ≠ k) : dictGet (dictAppend m k v) k' = dictGet m k' := by
  have h' : k ≠ k' := Ne.symm h
  induction m with
  | nil => simp [dictAppend, dictGet, h']
  | cons p rest ih =>
      obtain ⟨k'', vs⟩ := p
      by_cases hk : k'' = k
      · subst hk
        simp [dictAppend, dictGet, h']
      · simp [dictAppend, dictGet, hk, ih]

theorem dictGetD_dictAppend_ne {β : Type} (m : List (α × List β)) (k k' : α) (v : β)
    (h : k' ≠ k) : dictGetD (dictAppend m k v) k' = dictGetD m k' := by
  simp [dictGetD, dictGet_dictAppend_ne m k k' v h]

theorem keys_dictInsert {β : Type} (m : List (α × β)) (k : α) (v : β) :
    (dictInsert m k v).map (·.1) =
      if k ∈ m.map (·.1) then m.map (·.1) else m.map (·.1) ++ [k] := by
  induction m with
  | nil => simp [dictInsert]
  | cons p rest ih =>
      obtain ⟨k', v'⟩ := p
      by_cases h : k' = k
      · subst h
        simp [dictInsert]
      · simp only [dictInsert, if_neg h, List.map_cons, ih]
        have h' : k ≠ k' := Ne.symm h
        by_cases hmem : k ∈ rest.map (·.1) <;>
          simp [hmem, h, h']

theorem dictGet_mem {β : Type} {m : List (α × β)} {k : α} {v : β}
    (h : dictGet m k = some v) : (k, v) ∈ m := by
  induction m with
  | nil => simp [dictGet] at h
  | cons p rest ih =>
      obtain ⟨k', v'⟩ := p
      by_cases hk : k' = k
      · subst hk
        simp [dictGet] at h
        simp [h]
      · simp [dictGet, hk] at h
        exact List.mem_cons_of_mem _ (ih h)

theorem dictGet_isSome_iff {β : Type} (m : List (α × β)) (k : α) :
    (dictGet m k).isSome ↔ k ∈ m.map (·.1) := by
  induction m with
  | nil => simp [dictGet]
  | cons p rest ih =>
      obtain ⟨k', v'⟩ := p
      by_cases hk : k' = k
      · subst hk
        simp [dictGet]
      · have hk' : k ≠ k' := Ne.symm hk
        simp [dictGet, hk, ih, hk']

/-! ### The index invariant of reachable graph states

`graph.py` maintains the derived indices incrementally on every mutation;
on every state reachable through the public operations they agree with the
corresponding filters of the primary data, the node dictionary binds each
key to a node carrying that key as its `id`, and the per-type index lists
only ids present in the node dictionary. -/

/-- Invariant satisfied by every graph built through the public operations. -/
structure Inv (g : OrgGraph α) : Prop where
  src_index : ∀ k, dictGetD g.edgesBySource k = g.edges.filter (fun e => e.source_id = k)
  tgt_index : ∀ k, dictGetD g.edgesByTarget k = g.edges.filter (fun e => e.target_id = k)
  node_val_id : ∀ k nd, dictGet g.nodes k = some nd → nd.id = k
  keys_nodup : (nodeKeys g).Nodup
  type_index_sub : ∀ t i, i ∈ dictGetD g.nodesByType t → i ∈ nodeKeys g

theorem inv_empty : Inv (emptyGraph α) := by
  constructor <;> simp [emptyGraph, nodeKeys, dictGetD, dictGet]

theorem nodeKeys_add_entity (g : OrgGraph α) (eid : α) (t : EntityType) :
    nodeKeys (add_entity g eid t) =
      if eid ∈ nodeKeys g then nodeKeys g else nodeKeys g ++ [eid] := by
  simp [nodeKeys, add_entity, keys_dictInsert]

theorem mem_nodeKeys_add_entity {g : OrgGraph α} {i : α} (eid : α) (t : EntityType)
    (h : i ∈ nodeKeys g) : i ∈ nodeKeys (add_entity g eid t) := by
  rw [nodeKeys_add_entity]
  by_cases hmem : eid ∈ nodeKeys g <;> simp [hmem, h]

theorem inv_add_entity {g : OrgGraph α} (hg : Inv g) (eid : α) (t : EntityType) :
    Inv (add_entity g eid t) := by
  constructor
  · intro k
    exact hg.src_index k
  · intro k
    exact hg.tgt_index k
  · intro k nd hnd
    by_cases hk : k = eid
    · subst hk
      rw [show (add_entity g k t).nodes = dictInsert g.nodes k ⟨k, t⟩ from rfl,
        dictGet_dictInsert_self] at hnd
      cases hnd
      rfl
    · rw [show (add_entity g eid t).nodes = dictInsert g.nodes eid ⟨eid, t⟩ from rfl,
        dictGet_dictInsert_ne _ _ _ _ hk] at hnd
      exact hg.node_val_id k nd hnd
  · rw [nodeKeys_add_entity]
    by_cases hmem : eid ∈ nodeKeys g
    · simpa [hmem] using hg.keys_nodup
    · simp only [hmem, if_false]
      exact List.Nodup.append hg.keys_nodup (List.nodup_singleton eid)
        (by simpa using hmem)
  · intro t' i hi
    have hbt : (add_entity g eid t).nodesByType = dictAppend g.nodesByType t eid := rfl
    by_cases ht : t' = t
    · rw [hbt, ht, dictGetD_dictAppend_self] at hi
      rcases List.mem_append.1 hi with h | h
      · exact mem_nodeKeys_add_entity eid t (hg.type_index_sub t i h)
      · simp only [List.mem_singleton] at h
        subst h
        rw [nodeKeys_add_entity]
        by_cases hmem : i ∈ nodeKeys g <;> simp [hmem]
    · rw [hbt, dictGetD_dictAppend_ne _ _ _ _ ht] at hi
      exact mem_nodeKeys_add_entity eid t (hg.type_index_sub t' i hi)

theorem inv_add_relationship {g : OrgGraph α} (hg : Inv g) (src tgt : α)
    (rel : RelationType) : Inv (add_relationship g src tgt rel) := by
  constructor
  · intro k
    have hs : (add_relationship g src tgt rel).edgesBySource =
        dictAppend g.edgesBySource src ⟨src, tgt, rel⟩ := rfl
    have he : (add_relationship g src tgt rel).edges = g.edges ++ [⟨src, tgt, rel⟩] := rfl
    by_cases hk : k = src
    · subst hk
      rw [hs, he, dictGetD_dictAppend_self, hg.src_index, List.filter_append]
      simp
    · rw [hs, he, dictGetD_dictAppend_ne _ _ _ _ hk, hg.src_index, List.filter_append]
      simp [Ne.symm hk]
  · intro k
    have hs : (add_relationship g src tgt rel).edgesByTarget =
        dictAppend g.edgesByTarget tgt ⟨src, tgt, rel⟩ := rfl
    have he : (add_relationship g src tgt rel).edges = g.edges ++ [⟨src, tgt, rel⟩] := rfl
    by_cases hk : k = tgt
    · subst hk
      rw [hs, he, dictGetD_dictAppend_self, hg.tgt_index, List.filter_append]
      simp
    · rw [hs, he, dictGetD_dictAppend_ne _ _ _ _ hk, hg.tgt_index, List.filter_append]
      simp [Ne.symm hk]
  · intro k nd hnd
    exact hg.node_val_id k nd hnd
  · exact hg.keys_nodup
  · intro t' i hi
    exact hg.type_index_sub t' i hi

theorem inv_applyOp {g : OrgGraph α} (hg : Inv g) (op : GraphOp α) :
    Inv (applyOp g op) := by
  cases op with
  | addEntity eid t => exact inv_add_entity hg eid t
  | addRelationship s t r => exact inv_add_relationship hg s t r

theorem inv_buildGraph (ops : List (GraphOp α)) : Inv (buildGraph ops) := by
  suffices h : ∀ (l : List (GraphOp α)) (g : OrgGraph α), Inv g → Inv (l.foldl applyOp g) by
    exact h ops (emptyGraph α) inv_empty
  intro l
  induction l with
  | nil => intro g hg; exact hg
  | cons op rest ih => intro g hg; exact ih _ (inv_applyOp hg op)

/-! ### Neighbor-set lemmas -/

theorem mem_setAdd {s : List α} {x y : α} : x ∈ setAdd s y ↔ x ∈ s ∨ x = y := by
  by_cases h : y ∈ s
  · simp only [setAdd, if_pos h]
    constructor
    · exact fun hx => Or.inl hx
    · rintro (hx | rfl)
      · exact hx
      · exact h
  · simp [setAdd, if_neg h]

theorem nodup_setAdd {s : List α} (hs : s.Nodup) (y : α) : (setAdd s y).Nodup := by
  by_cases h : y ∈ s
  · simpa [setAdd, if_pos h] using hs
  · simp only [setAdd, if_neg h]
    exact List.Nodup.append hs (List.nodup_singleton y) (by simpa using h)

theorem mem_foldl_setAdd {β : Type} (f : β → α) :
    ∀ (l : List β) (s : List α) (x : α),
      x ∈ l.foldl (fun s e => setAdd s (f e)) s ↔ x ∈ s ∨ x ∈ l.map f := by
  intro l
  induction l with
  | nil => simp
  | cons e rest ih =>
      intro s x
      simp only [List.foldl_cons, List.map_cons, List.mem_cons]
      rw [ih, mem_setAdd]
      tauto

theorem nodup_foldl_setAdd {β : Type} (f : β → α) :
    ∀ (l : List β) (s : List α), s.Nodup → (l.foldl (fun s e => setAdd s (f e)) s).Nodup := by
  intro l
  induction l with
  | nil => intro s hs; simpa using hs
  | cons e rest ih => intro s hs; exact ih _ (nodup_setAdd hs (f e))

theorem nodup_neighborIds (g : OrgGraph α) (eid : α) (dir : Direction) :
    (neighborIds g eid dir).Nodup := by
  unfold neighborIds
  by_cases h2 : dir = .incoming ∨ dir = .both
  · simp only [h2, if_true]
    apply nodup_foldl_setAdd (fun e : GraphEdge α => e.source_id)
    by_cases h1 : dir = .outgoing ∨ dir = .both
    · simp only [h1, if_true]
      exact nodup_foldl_setAdd (fun e : GraphEdge α => e.target_id) _ _ List.nodup_nil
    · simp [h1]
  · simp only [h2, if_false]
    by_cases h1 : dir = .outgoing ∨ dir = .both
    · simp only [h1, if_true]
      exact nodup_foldl_setAdd (fun e : GraphEdge α => e.target_id) _ _ List.nodup_nil
    · simp [h1]

theorem mem_neighborIds_outgoing (g : OrgGraph α) (eid x : α) :
    x ∈ neighborIds g eid .outgoing ↔
      x ∈ (dictGetD g.edgesBySource eid).map (·.target_id) := by
  unfold neighborIds
  simp [mem_foldl_setAdd (fun e : GraphEdge α => e.target_id)]

theorem mem_neighborIds_incoming (g : OrgGraph α) (eid x : α) :
    x ∈ neighborIds g eid .incoming ↔
      x ∈ (dictGetD g.edgesByTarget eid).map (·.source_id) := by
  unfold neighborIds
  simp [mem_foldl_setAdd (fun e : GraphEdge α => e.source_id)]

theorem mem_neighborIds_both (g : OrgGraph α) (eid x : α) :
    x ∈ neighborIds g eid .both ↔
      x ∈ (dictGetD g.edgesBySource eid).map (·.target_id) ∨
        x ∈ (dictGetD g.edgesByTarget eid).map (·.source_id) := by
  unfold neighborIds
  simp [mem_foldl_setAdd (fun e : GraphEdge α => e.source_id),
    mem_foldl_setAdd (fun e : GraphEdge α => e.target_id), or_comm]

theorem mem_get_neighbors (g : OrgGraph α) (eid : α) (dir : Direction)
    (nd : GraphNode α) :
    nd ∈ get_neighbors g eid dir ↔
      ∃ i ∈ neighborIds g eid dir, dictGet g.nodes i = some nd := by
  simp [get_neighbors, List.mem_filterMap]

theorem ids_get_neighbors {g : OrgGraph α} (hg : Inv g) (eid : α) (dir : Direction)
    (x : α) :
    (∃ nd ∈ get_neighbors g eid dir, nd.id = x) ↔
      x ∈ neighborIds g eid dir ∧ x ∈ nodeKeys g := by
  constructor
  · rintro ⟨nd, hnd, rfl⟩
    rw [mem_get_neighbors] at hnd
    obtain ⟨i, hi, hget⟩ := hnd
    have hid := hg.node_val_id i nd hget
    subst hid
    refine ⟨hi, ?_⟩
    have : (dictGet g.nodes nd.id).isSome := by rw [hget]; rfl
    exact (dictGet_isSome_iff g.nodes nd.id).1 this
  · rintro ⟨hnbr, hkey⟩
    have hsome : (dictGet g.nodes x).isSome := (dictGet_isSome_iff g.nodes x).2 hkey
    obtain ⟨nd, hnd⟩ := Option.isSome_iff_exists.1 hsome
    exact ⟨nd, (mem_get_neighbors g eid dir nd).2 ⟨x, hnbr, hnd⟩,
      hg.node_val_id x nd hnd⟩

/-- Under the invariant, membership in the outgoing neighbor set is exactly:
a stored edge from `a` to `b` exists and `b` is a stored node. -/
theorem mem_neighbors_outgoing_iff {g : OrgGraph α} (hg : Inv g) (a b : α) :
    (∃ nd ∈ get_neighbors g a .outgoing, nd.id = b) ↔
      (∃ e ∈ g.edges, e.source_id = a ∧ e.target_id = b) ∧ b ∈ nodeKeys g := by
  rw [ids_get_neighbors hg, mem_neighborIds_outgoing, hg.src_index]
  simp only [List.mem_map, List.mem_filter, decide_eq_true_eq]
  constructor
  · rintro ⟨⟨e, ⟨he, hsrc⟩, htgt⟩, hb⟩
    exact ⟨⟨e, he, hsrc, htgt⟩, hb⟩
  · rintro ⟨⟨e, he, hsrc, htgt⟩, hb⟩
    exact ⟨⟨e, ⟨he, hsrc⟩, htgt⟩, hb⟩

theorem mem_neighbors_incoming_iff {g : OrgGraph α} (hg : Inv g) (a b : α) :
    (∃ nd ∈ get_neighbors g a .incoming, nd.id = b) ↔
      (∃ e ∈ g.edges, e.source_id = b ∧ e.target_id = a) ∧ b ∈ nodeKeys g := by
  rw [ids_get_neighbors hg, mem_neighborIds_incoming, hg.tgt_index]
  simp only [List.mem_map, List.mem_filter, decide_eq_true_eq]
  constructor
  · rintro ⟨⟨e, ⟨he, htgt⟩, hsrc⟩, hb⟩
    exact ⟨⟨e, he, hsrc, htgt⟩, hb⟩
  · rintro ⟨⟨e, he, hsrc, htgt⟩, hb⟩
    exact ⟨⟨e, ⟨he, htgt⟩, hsrc⟩, hb⟩

/-! ### `OrgGraph.find_path`: breadth-first search

The embedded algorithm is the in-repo BFS (`graph.py`, the fallback body of
`find_path`): a FIFO queue of `(current, path)` pairs, a visited set updated
at enqueue time, and expansion through `get_neighbors(current, "outgoing")`. -/

/-- The ids iterated by `for neighbor in self.get_neighbors(current, "outgoing")`. -/
def outIds (g : OrgGraph α) (a : α) : List α :=
  (get_neighbors g a .outgoing).map (·.id)

/-- One traversal step of the BFS: `b` is the id of a stored node reached by
an outgoing edge of `a`. -/
def bfsStep (g : OrgGraph α) (a b : α) : Prop :=
  b ∈ outIds g a

instance (g : OrgGraph α) (a b : α) : Decidable (bfsStep g a b) := by
  unfold bfsStep
  infer_instance

theorem outIds_sub_nodeIdVals (g : OrgGraph α) (a : α) :
    ∀ x ∈ outIds g a, x ∈ nodeIdVals g := by
  intro x hx
  simp only [outIds, List.mem_map] at hx
  obtain ⟨nd, hnd, rfl⟩ := hx
  rw [mem_get_neighbors] at hnd
  obtain ⟨i, _, hget⟩ := hnd
  exact List.mem_map.2 ⟨(i, nd), dictGet_mem hget, rfl⟩

/-- The inner `for` loop of the BFS: mark each not-yet-visited neighbor
visited and append it to the queue with the extended path. -/
def enqueueNew (path : List α) :
    List α → List α × List (α × List α) → List α × List (α × List α)
  | [], acc => acc
  | n :: ns, (visited, queue) =>
      if n ∈ visited then enqueueNew path ns (visited, queue)
      else enqueueNew path ns (visited ++ [n], queue ++ [(n, path ++ [n])])

theorem enqueueNew_spec (path : List α) :
    ∀ (ns visited : List α) (queue : List (α × List α)),
      ∃ fresh : List α,
        (enqueueNew path ns (visited, queue)).1 = visited ++ fresh ∧
        (enqueueNew path ns (visited, queue)).2 =
          queue ++ fresh.map (fun i => (i, path ++ [i])) ∧
        fresh.Nodup ∧ (∀ x ∈ fresh, x ∈ ns ∧ x ∉ visited) ∧
        (∀ x ∈ ns, x ∈ visited ++ fresh) := by
  intro ns
  induction ns with
  | nil =>
      intro visited queue
      exact ⟨[], by simp [enqueueNew], by simp [enqueueNew], List.nodup_nil,
        by simp, by simp⟩
  | cons n ns ih =>
      intro visited queue
      by_cases hn : n ∈ visited
      · obtain ⟨fresh, h1, h2, h3, h4, h5⟩ := ih visited queue
        have hstep : enqueueNew path (n :: ns) (visited, queue) =
            enqueueNew path ns (visited, queue) := by
          simp [enqueueNew, hn]
        refine ⟨fresh, by rw [hstep]; exact h1, by rw [hstep]; exact h2, h3, ?_, ?_⟩
        · exact fun x hx => ⟨List.mem_cons_of_mem _ (h4 x hx).1, (h4 x hx).2⟩
        · intro x hx
          rcases List.mem_cons.1 hx with rfl | hx
          · exact List.mem_append.2 (Or.inl hn)
          · exact h5 x hx
      · obtain ⟨fresh, h1, h2, h3, h4, h5⟩ :=
          ih (visited ++ [n]) (queue ++ [(n, path ++ [n])])
        have hstep : enqueueNew path (n :: ns) (visited, queue) =
            enqueueNew path ns (visited ++ [n], queue ++ [(n, path ++ [n])]) := by
          simp [enqueueNew, hn]
        have hnf : n ∉ fresh := fun hmem => (h4 n hmem).2 (by simp)
        refine ⟨n :: fresh, ?_, ?_, ?_, ?_, ?_⟩
        · rw [hstep, h1]
          simp
        · rw [hstep, h2]
          simp
        · exact List.nodup_cons.2 ⟨hnf, h3⟩
        · intro x hx
          rcases List.mem_cons.1 hx with rfl | hx
          · exact ⟨List.mem_cons_self _ _, hn⟩
          · obtain ⟨hx1, hx2⟩ := h4 x hx
            exact ⟨List.mem_cons_of_mem _ hx1,
              fun hv => hx2 (List.mem_append.2 (Or.inl hv))⟩
        · intro x hx
          rcases List.mem_cons.1 hx with rfl | hx
          · simp
          · rcases List.mem_append.1 (h5 x hx) with h | h
            · rcases List.mem_append.1 h with h | h
              · exact List.mem_append.2 (Or.inl h)
              · simp only [List.mem_singleton] at h
                subst h
                simp
            · simp [h]

/-- Counting bound used for termination: removing a duplicate-free batch of
fresh ids (each present in `l` and outside `visited`) from the unvisited
part of `l` shrinks it by at least the size of the batch. -/
theorem filter_not_mem_append_length {l fresh visited : List α}
    (hnd : fresh.Nodup) (hmem : ∀ x ∈ fresh, x ∈ l ∧ x ∉ visited) :
    (l.filter (fun x => x ∉ visited ++ fresh)).length + fresh.length ≤
      (l.filter (fun x => x ∉ visited)).length := by
  classical
  have hsplit : l.filter (fun x => x ∉ visited ++ fresh) =
      (l.filter (fun x => x ∉ visited)).filter (fun x => x ∉ fresh) := by
    rw [List.filter_filter]
    apply List.filter_congr
    intro x _
    by_cases h1 : x ∈ visited <;> by_cases h2 : x ∈ fresh <;>
      simp [h1, h2, List.mem_append]
  have hpart := @List.length_eq_length_filter_add _
    (l.filter (fun x => x ∉ visited)) (fun x => decide (x ∉ fresh))
  have hfreshle : fresh.length ≤
      ((l.filter (fun x => x ∉ visited)).filter
        (fun x => !(decide (x ∉ fresh)))).length := by
    have hsub : fresh ⊆ (l.filter (fun x => x ∉ visited)).filter
        (fun x => !(decide (x ∉ fresh))) := by
      intro x hx
      obtain ⟨hl, hv⟩ := hmem x hx
      simp [List.mem_filter, hl, hv, hx]
    calc fresh.length = fresh.toFinset.card :=
          (List.toFinset_card_of_nodup hnd).symm
      _ ≤ (((l.filter (fun x => x ∉ visited)).filter
            (fun x => !(decide (x ∉ fresh)))).toFinset).card := by
          apply Finset.card_le_card
          intro x hx
          rw [List.mem_toFinset] at hx ⊢
          exact hsub hx
      _ ≤ _ := List.toFinset_card_le _
  calc (l.filter (fun x => x ∉ visited ++ fresh)).length + fresh.length
      = ((l.filter (fun x => x ∉ visited)).filter
          (fun x => x ∉ fresh)).length + fresh.length := by rw [hsplit]
    _ ≤ ((l.filter (fun x => x ∉ visited)).filter
          (fun x => decide (x ∉ fresh))).length +
        ((l.filter (fun x => x ∉ visited)).filter
          (fun x => !(decide (x ∉ fresh)))).length := by
        exact Nat.add_le_add_left hfreshle _
    _ = (l.filter (fun x => x ∉ visited)).length := hpart.symm

/-- The BFS measure: twice the number of node values not yet visited plus
the queue length. -/
def bfsMeasure (g : OrgGraph α) (queue : List (α × List α)) (visited : List α) : Nat :=
  2 * ((nodeIdVals g).filter (fun x => x ∉ visited)).length + queue.length

theorem bfsMeasure_decreases (g : OrgGraph α) (current : α) (path : List α)
    (rest : List (α × List α)) (visited : List α) :
    bfsMeasure g (enqueueNew path (outIds g current) (visited, rest)).2
        (enqueueNew path (outIds g current) (visited, rest)).1 <
      bfsMeasure g ((current, path) :: rest) visited := by
  obtain ⟨fresh, h1, h2, h3, h4, _⟩ :=
    enqueueNew_spec path (outIds g current) visited rest
  have hcount := @filter_not_mem_append_length _ _ (nodeIdVals g) _ _ h3
    (fun x hx => ⟨outIds_sub_nodeIdVals g current x (h4 x hx).1, (h4 x hx).2⟩)
  rw [bfsMeasure, bfsMeasure, h1, h2]
  simp only [List.length_append, List.length_map, List.length_cons]
  omega

/-- The `while queue:` loop of `OrgGraph.find_path`. -/
def bfsLoop (g : OrgGraph α) (target : α) :
    List (α × List α) → List α → Option (List α)
  | [], _ => none
  | (current, path) :: rest, visited =>
      if current = target then some path
      else
        bfsLoop g target (enqueueNew path (outIds g current) (visited, rest)).2
          (enqueueNew path (outIds g current) (visited, rest)).1
termination_by queue visited => bfsMeasure g queue visited
decreasing_by
  exact bfsMeasure_decreases g current path rest visited

/-- `OrgGraph.find_path` (BFS fallback): visited and queue both start from
the source id. -/
def find_path (g : OrgGraph α) (source_id target_id : α) : Option (List α) :=
  bfsLoop g target_id [(source_id, [source_id])] [source_id]

/-! ### Chains and BFS correctness -/

/-- A walk along relation `r` recorded as the list of visited ids, starting
at `s` and ending at `t`. -/
def ChainFrom (r : α → α → Prop) (s t : α) (p : List α) : Prop :=
  p.Chain' r ∧ p.head? = some s ∧ p.getLast? = some t

theorem chainFrom_singleton (r : α → α → Prop) (s : α) : ChainFrom r s s [s] :=
  ⟨by simp, rfl, rfl⟩

theorem ChainFrom.length_pos {r : α → α → Prop} {s t : α} {p : List α}
    (h : ChainFrom r s t p) : 1 ≤ p.length := by
  cases p with
  | nil => simp [ChainFrom] at h
  | cons a l => simp

theorem ChainFrom.snoc {r : α → α → Prop} {s c m : α} {p : List α}
    (h : ChainFrom r s c p) (hr : r c m) : ChainFrom r s m (p ++ [m]) := by
  obtain ⟨hc, hh, hl⟩ := h
  refine ⟨?_, ?_, List.getLast?_concat p⟩
  · rw [List.chain'_append]
    refine ⟨hc, by simp, ?_⟩
    intro x hx y hy
    simp only [List.head?_cons, Option.mem_def, Option.some.injEq] at hy
    rw [Option.mem_def, hl, Option.some.injEq] at hx
    subst hx
    subst hy
    exact hr
  · cases p with
    | nil => simp at hh
    | cons a l => simpa using hh

theorem ChainFrom.cons_of_head {r : α → α → Prop} {s y t : α} {q : List α}
    (h : ChainFrom r y t q) (hr : r s y) : ChainFrom r s t (s :: q) := by
  obtain ⟨hc, hh, hl⟩ := h
  refine ⟨List.chain'_cons'.2 ⟨?_, hc⟩, rfl, ?_⟩
  · intro z hz
    rw [Option.mem_def, hh, Option.some.injEq] at hz
    subst hz
    exact hr
  · cases q with
    | nil => simp at hh
    | cons a l => simpa using hl

/-- Every chain from inside a successor-closed set ends inside the set. -/
theorem chainFrom_stay {r : α → α → Prop} {S : List α}
    (hclosed : ∀ v ∈ S, ∀ m, r v m → m ∈ S) :
    ∀ (p : List α) (s t : α), ChainFrom r s t p → s ∈ S → t ∈ S
  | [], s, t, h, _ => by simp [ChainFrom] at h
  | [x], s, t, h, hs => by
      obtain ⟨_, hh, hl⟩ := h
      simp only [List.head?_cons, Option.some.injEq] at hh
      simp only [List.getLast?_singleton, Option.some.injEq] at hl
      subst hh
      subst hl
      exact hs
  | x :: y :: rest, s, t, h, hs => by
      obtain ⟨hch, hh, hl⟩ := h
      simp only [List.head?_cons, Option.some.injEq] at hh
      subst hh
      obtain ⟨hxy, hch'⟩ := List.chain'_cons.1 hch
      exact chainFrom_stay hclosed (y :: rest) y t
        ⟨hch', rfl, by simpa using hl⟩ (hclosed _ hs _ hxy)

/-- Along a chain from inside `S` to outside `S`, some prefix ends at a
member `v` of `S` with an `r`-step to a non-member `w`; the prefix is a
chain strictly shorter than the whole. -/
theorem chain_first_exit {r : α → α → Prop} {S : List α} :
    ∀ (p : List α) (s t : α), ChainFrom r s t p → s ∈ S → t ∉ S →
      ∃ (q₁ : List α) (v w : α), v ∈ S ∧ w ∉ S ∧ r v w ∧
        ChainFrom r s v q₁ ∧ q₁.length + 1 ≤ p.length
  | [], s, t, h, _, _ => by simp [ChainFrom] at h
  | [x], s, t, h, hs, ht => by
      obtain ⟨_, hh, hl⟩ := h
      simp only [List.head?_cons, Option.some.injEq] at hh
      simp only [List.getLast?_singleton, Option.some.injEq] at hl
      subst hh
      subst hl
      exact absurd hs ht
  | x :: y :: rest, s, t, h, hs, ht => by
      obtain ⟨hch, hh, hl⟩ := h
      simp only [List.head?_cons, Option.some.injEq] at hh
      subst hh
      obtain ⟨hxy, hch'⟩ := List.chain'_cons.1 hch
      by_cases hy : y ∈ S
      · obtain ⟨q₁, v, w, hv, hw, hr, hcq, hlen⟩ :=
          chain_first_exit (y :: rest) y t ⟨hch', rfl, by simpa using hl⟩ hy ht
        exact ⟨x :: q₁, v, w, hv, hw, hr, hcq.cons_of_head hxy,
          by simpa using Nat.succ_le_succ hlen⟩
      · exact ⟨[x], x, y, hs, hy, hxy, chainFrom_singleton r x, by simp⟩

/-- Loop invariant of the BFS in `find_path`: queue entries carry valid
shortest chains from the source, queue path lengths are nondecreasing and
span at most two consecutive values, queued ids are visited, and every
visited id is either still queued or fully expanded and distinct from the
target. -/
structure BfsInv (g : OrgGraph α) (source target : α)
    (queue : List (α × List α)) (visited : List α) : Prop where
  paths_ok : ∀ cp ∈ queue, ChainFrom (bfsStep g) source cp.1 cp.2
  lens_sorted : List.Pairwise (· ≤ ·) (queue.map (fun cp => cp.2.length))
  lens_window : ∀ cp ∈ queue, ∀ hd ∈ queue.head?, cp.2.length ≤ hd.2.length + 1
  shortest : ∀ cp ∈ queue, ∀ q, ChainFrom (bfsStep g) source cp.1 q →
    cp.2.length ≤ q.length
  in_visited : ∀ cp ∈ queue, cp.1 ∈ visited
  expanded : ∀ v ∈ visited, (∃ cp ∈ queue, cp.1 = v) ∨
    (v ≠ target ∧ ∀ m, bfsStep g v m → m ∈ visited)
  source_mem : source ∈ visited

theorem pairwise_le_map_const {β : Type} (l : List β) (f : β → Nat) (c : Nat)
    (hf : ∀ x ∈ l, f x = c) : List.Pairwise (· ≤ ·) (l.map f) := by
  induction l with
  | nil => simp
  | cons a l ih =>
      simp only [List.map_cons, List.pairwise_cons]
      refine ⟨?_, ih (fun x hx => hf x (List.mem_cons_of_mem _ hx))⟩
      intro b hb
      obtain ⟨x, hx, rfl⟩ := List.mem_map.1 hb
      rw [hf a (List.mem_cons_self _ _), hf x (List.mem_cons_of_mem _ hx)]

theorem bfsInv_maintain {g : OrgGraph α} {source target current : α}
    {path : List α} {rest : List (α × List α)} {visited : List α}
    (hinv : BfsInv g source target ((current, path) :: rest) visited)
    (hct : current ≠ target) :
    BfsInv g source target
      (enqueueNew path (outIds g current) (visited, rest)).2
      (enqueueNew path (outIds g current) (visited, rest)).1 := by
  obtain ⟨fresh, h1, h2, h3, h4, h5⟩ := enqueueNew_spec path (outIds g current) visited rest
  have hheadpath : ChainFrom (bfsStep g) source current path :=
    hinv.paths_ok (current, path) (List.mem_cons_self _ _)
  have hmin : ∀ cp ∈ rest, path.length ≤ cp.2.length := by
    intro cp hcp
    have := hinv.lens_sorted
    simp only [List.map_cons, List.pairwise_cons] at this
    exact this.1 _ (List.mem_map.2 ⟨cp, hcp, rfl⟩)
  have hwin : ∀ cp ∈ (current, path) :: rest, cp.2.length ≤ path.length + 1 := by
    intro cp hcp
    exact hinv.lens_window cp hcp (current, path) rfl
  have hfresh_mem : ∀ cp ∈ fresh.map (fun i => (i, path ++ [i])),
      ∃ m ∈ fresh, cp = (m, path ++ [m]) := by
    intro cp hcp
    obtain ⟨m, hm, rfl⟩ := List.mem_map.1 hcp
    exact ⟨m, hm, rfl⟩
  -- length bounds on the new queue
  have hlow : ∀ cp, cp ∈ (enqueueNew path (outIds g current) (visited, rest)).2 →
      path.length ≤ cp.2.length := by
    rw [h2]
    intro cp hcp
    rcases List.mem_append.1 hcp with hcp | hcp
    · exact hmin cp hcp
    · obtain ⟨m, _, rfl⟩ := hfresh_mem cp hcp
      simp
  have hhigh : ∀ cp, cp ∈ (enqueueNew path (outIds g current) (visited, rest)).2 →
      cp.2.length ≤ path.length + 1 := by
    rw [h2]
    intro cp hcp
    rcases List.mem_append.1 hcp with hcp | hcp
    · exact hwin cp (List.mem_cons_of_mem _ hcp)
    · obtain ⟨m, _, rfl⟩ := hfresh_mem cp hcp
      simp
  constructor
  · -- paths_ok
    rw [h2]
    intro cp hcp
    rcases List.mem_append.1 hcp with hcp | hcp
    · exact hinv.paths_ok cp (List.mem_cons_of_mem _ hcp)
    · obtain ⟨m, hm, rfl⟩ := hfresh_mem cp hcp
      exact hheadpath.snoc (h4 m hm).1
  · -- lens_sorted
    rw [h2]
    rw [List.map_append, List.pairwise_append]
    refine ⟨?_, ?_, ?_⟩
    · have := hinv.lens_sorted
      simp only [List.map_cons, List.pairwise_cons] at this
      exact this.2
    · rw [List.map_map]
      exact pairwise_le_map_const fresh _ (path.length + 1) (fun x _ => by simp)
    · intro a ha b hb
      obtain ⟨cp, hcp, rfl⟩ := List.mem_map.1 ha
      rw [List.map_map] at hb
      obtain ⟨m, _, rfl⟩ := List.mem_map.1 hb
      simpa using hwin cp (List.mem_cons_of_mem _ hcp)
  · -- lens_window
    intro cp hcp hd hhd
    have hhd' : hd ∈ (enqueueNew path (outIds g current) (visited, rest)).2 :=
      List.mem_of_mem_head? hhd
    calc cp.2.length ≤ path.length + 1 := hhigh cp hcp
      _ ≤ hd.2.length + 1 := Nat.succ_le_succ (hlow hd hhd')
  · -- shortest
    rw [h2]
    intro cp hcp q hq
    rcases List.mem_append.1 hcp with hcp | hcp
    · exact hinv.shortest cp (List.mem_cons_of_mem _ hcp) q hq
    · obtain ⟨m, hm, rfl⟩ := hfresh_mem cp hcp
      obtain ⟨hmo, hmv⟩ := h4 m hm
      obtain ⟨q₁, v, w, hv, hw, hr, hcq, hlen⟩ :=
        chain_first_exit q source m hq hinv.source_mem hmv
      rcases hinv.expanded v hv with ⟨cp', hcp', rfl⟩ | ⟨_, hcl⟩
      · have hshort : cp'.2.length ≤ q₁.length :=
          hinv.shortest cp' hcp' q₁ hcq
        have hple : path.length ≤ cp'.2.length := by
          rcases List.mem_cons.1 hcp' with rfl | hcp'
          · exact Nat.le_refl _
          · exact hmin cp' hcp'
        simp only [List.length_append, List.length_singleton]
        omega
      · exact absurd (hcl w hr) hw
  · -- in_visited
    rw [h1, h2]
    intro cp hcp
    rcases List.mem_append.1 hcp with hcp | hcp
    · exact List.mem_append.2 (Or.inl (hinv.in_visited cp (List.mem_cons_of_mem _ hcp)))
    · obtain ⟨m, hm, rfl⟩ := hfresh_mem cp hcp
      exact List.mem_append.2 (Or.inr hm)
  · -- expanded
    rw [h1, h2]
    intro v hv
    rcases List.mem_append.1 hv with hv | hv
    · rcases hinv.expanded v hv with ⟨cp', hcp', rfl⟩ | ⟨hvt, hcl⟩
      · rcases List.mem_cons.1 hcp' with heq | hcp'
        · -- the popped entry: now fully expanded
          right
          have hcur : cp'.1 = current := by rw [heq]
          rw [hcur]
          refine ⟨hct, ?_⟩
          intro m hm
          exact List.mem_append.1 (h5 m hm) |>.elim
            (fun h => List.mem_append.2 (Or.inl h))
            (fun h => List.mem_append.2 (Or.inr h))
        · left
          exact ⟨cp', List.mem_append.2 (Or.inl hcp'), rfl⟩
      · right
        exact ⟨hvt, fun m hm => List.mem_append.2 (Or.inl (hcl m hm))⟩
    · left
      exact ⟨(v, path ++ [v]),
        List.mem_append.2 (Or.inr (List.mem_map.2 ⟨v, hv, rfl⟩)), rfl⟩
  · -- source_mem
    rw [h1]
    exact List.mem_append.2 (Or.inl hinv.source_mem)

theorem bfsLoop_correct (g : OrgGraph α) (source target : α) :
    ∀ (queue : List (α × List α)) (visited : List α),
      BfsInv g source target queue visited →
      (∀ p, bfsLoop g target queue visited = some p →
        ChainFrom (bfsStep g) source target p ∧
        ∀ q, ChainFrom (bfsStep g) source target q → p.length ≤ q.length) ∧
      (bfsLoop g target queue visited = none →
        ∀ q, ¬ ChainFrom (bfsStep g) source target q) := by
  suffices h : ∀ (N : Nat) (queue : List (α × List α)) (visited : List α),
      bfsMeasure g queue visited = N → BfsInv g source target queue visited →
      (∀ p, bfsLoop g target queue visited = some p →
        ChainFrom (bfsStep g) source target p ∧
        ∀ q, ChainFrom (bfsStep g) source target q → p.length ≤ q.length) ∧
      (bfsLoop g target queue visited = none →
        ∀ q, ¬ ChainFrom (bfsStep g) source target q) by
    exact fun queue visited hinv => h _ queue visited rfl hinv
  intro N
  induction N using Nat.strong_induction_on with
  | _ N ih =>
      intro queue visited hN hinv
      match queue with
      | [] =>
          have heq : bfsLoop g target ([] : List (α × List α)) visited = none := by
            simp [bfsLoop]
          refine ⟨fun p hp => (by rw [heq] at hp; cases hp), fun _ q hq => ?_⟩
          have hclosed : ∀ v ∈ visited, ∀ m, bfsStep g v m → m ∈ visited := by
            intro v hv m hm
            rcases hinv.expanded v hv with ⟨cp, hcp, _⟩ | ⟨_, hcl⟩
            · simp at hcp
            · exact hcl m hm
          have htv : target ∈ visited :=
            chainFrom_stay hclosed q source target hq hinv.source_mem
          rcases hinv.expanded target htv with ⟨cp, hcp, _⟩ | ⟨hne, _⟩
          · simp at hcp
          · exact hne rfl
      | (current, path) :: rest =>
          by_cases hct : current = target
          · have heq : bfsLoop g target ((current, path) :: rest) visited = some path := by
              rw [bfsLoop]
              simp [hct]
            refine ⟨fun p hp => ?_, fun hnone => by rw [heq] at hnone; cases hnone⟩
            rw [heq] at hp
            cases hp
            subst hct
            exact ⟨hinv.paths_ok (current, path) (List.mem_cons_self _ _),
              fun q hq => hinv.shortest (current, path) (List.mem_cons_self _ _) q hq⟩
          · have heq : bfsLoop g target ((current, path) :: rest) visited =
                bfsLoop g target
                  (enqueueNew path (outIds g current) (visited, rest)).2
                  (enqueueNew path (outIds g current) (visited, rest)).1 := by
              rw [bfsLoop]
              simp [hct]
            have hlt : bfsMeasure g
                (enqueueNew path (outIds g current) (visited, rest)).2
                (enqueueNew path (outIds g current) (visited, rest)).1 < N := by
              rw [← hN]
              exact bfsMeasure_decreases g current path rest visited
            have := ih _ hlt _ _ rfl (bfsInv_maintain hinv hct)
            rw [heq]
            exact this

theorem bfsInv_init (g : OrgGraph α) (s t : α) :
    BfsInv g s t [(s, [s])] [s] := by
  constructor
  · intro cp hcp
    simp only [List.mem_singleton] at hcp
    subst hcp
    exact chainFrom_singleton _ s
  · simp
  · intro cp hcp hd hhd
    simp only [List.mem_singleton] at hcp
    simp only [List.head?_cons, Option.mem_def, Option.some.injEq] at hhd
    subst hcp
    subst hhd
    simp
  · intro cp hcp q hq
    simp only [List.mem_singleton] at hcp
    subst hcp
    simpa using hq.length_pos
  · intro cp hcp
    simp only [List.mem_singleton] at hcp
    subst hcp
    simp
  · intro v hv
    simp only [List.mem_singleton] at hv
    subst hv
    exact Or.inl ⟨(v, [v]), List.mem_singleton.2 rfl, rfl⟩
  · simp

/-- Full characterization of `find_path` on any graph: `none` exactly when no
chain of stored-node outgoing steps joins source to target, and any returned
path is such a chain of minimum length with the right endpoints. -/
theorem find_path_correct (g : OrgGraph α) (s t : α) :
    (find_path g s t = none ↔ ¬ ∃ q, ChainFrom (bfsStep g) s t q) ∧
    (∀ p, find_path g s t = some p →
      ChainFrom (bfsStep g) s t p ∧
      ∀ q, ChainFrom (bfsStep g) s t q → p.length ≤ q.length) := by
  have h := bfsLoop_correct g s t [(s, [s])] [s] (bfsInv_init g s t)
  constructor
  · constructor
    · rintro hnone ⟨q, hq⟩
      exact h.2 hnone q hq
    · intro hno
      cases hfp : find_path g s t with
      | none => rfl
      | some p =>
          exact absurd ⟨p, (h.1 p hfp).1⟩ hno
  · exact h.1

/-- Under the index invariant, one BFS step from `a` to `b` is exactly: a
stored edge `a → b` exists and `b` is a stored node. -/
theorem bfsStep_iff {g : OrgGraph α} (hg : Inv g) (a b : α) :
    bfsStep g a b ↔
      (∃ e ∈ g.edges, e.source_id = a ∧ e.target_id = b) ∧ b ∈ nodeKeys g := by
  rw [← mem_neighbors_outgoing_iff hg]
  unfold bfsStep outIds
  simp [List.mem_map]

/-! ### Claim C4 -/

/-- Operation sequence exhibiting `find_path` on an absent id. -/
def c4ops : List (GraphOp String) :=
  [.addEntity "a" .organization, .addEntity "b" .repository,
    .addRelationship "a" "b" .owns]

/-- C4 (counterexample): the claim asserts `findPath(a, b)` returns `null`
when either id is absent from the node set, but on the empty graph
`find_path "x" "x"` returns `some ["x"]` although `"x"` is not a node. -/
theorem c4_counterexample :
    find_path (emptyGraph String) "x" "x" = some ["x"] ∧
      "x" ∉ nodeKeys (emptyGraph String) := by
  constructor
  · rw [find_path, bfsLoop]
    simp
  · simp [nodeKeys, emptyGraph]

/-- C4 (amended): on every reachable graph, `find_path a b` returns `none`
exactly when `b` is not reachable from `a` along outgoing edges through
stored nodes, and any returned list starts at `a`, ends at `b`, joins
consecutive elements by stored outgoing edges, and is an unweighted shortest
such walk.  (The original claim's further clause that an absent id forces
`null` is dropped: the BFS returns a path whenever one exists through
stored intermediate nodes, and returns `[a]` for `a = b` even when absent.) -/
theorem c4_find_path (ops : List (GraphOp String)) (a b : String) :
    (find_path (buildGraph ops) a b = none ↔
      ¬ ∃ q, ChainFrom (bfsStep (buildGraph ops)) a b q) ∧
    (∀ p, find_path (buildGraph ops) a b = some p →
      p.head? = some a ∧ p.getLast? = some b ∧
      p.Chain' (fun x y => ∃ e ∈ (buildGraph ops).edges,
        e.source_id = x ∧ e.target_id = y) ∧
      ∀ q, ChainFrom (bfsStep (buildGraph ops)) a b q → p.length ≤ q.length) := by
  have hg := inv_buildGraph ops
  have h := find_path_correct (buildGraph ops) a b
  refine ⟨h.1, ?_⟩
  intro p hp
  obtain ⟨⟨hchain, hh, hl⟩, hmin⟩ := h.2 p hp
  exact ⟨hh, hl, hchain.imp (fun x y hxy => ((bfsStep_iff hg x y).1 hxy).1), hmin⟩

/-- C4 (witness): the amended theorem applied to a concrete two-node graph
with one edge, discharging the `some`-case hypothesis by evaluation. -/
theorem c4_witness :
    (["a", "b"] : List String).head? = some "a" ∧
    (["a", "b"] : List String).getLast? = some "b" ∧
    (["a", "b"] : List String).Chain' (fun x y =>
      ∃ e ∈ (buildGraph c4ops).edges, e.source_id = x ∧ e.target_id = y) ∧
    (∀ q, ChainFrom (bfsStep (buildGraph c4ops)) "a" "b" q →
      (["a", "b"] : List String).length ≤ q.length) := by
  have heval : find_path (buildGraph c4ops) "a" "b" = some ["a", "b"] := by
    rw [find_path, bfsLoop]
    rw [if_neg (by decide)]
    rw [show enqueueNew ["a"] (outIds (buildGraph c4ops) "a") (["a"], []) =
      (["a", "b"], [("b", ["a", "b"])]) from by decide]
    rw [bfsLoop]
    simp
  exact (c4_find_path c4ops "a" "b").2 ["a", "b"] heval

/-! ### Claim C7 -/

theorem filterMap_dictGet_map_id {g : OrgGraph α}
    (hid : ∀ k nd, dictGet g.nodes k = some nd → nd.id = k) :
    ∀ l : List α, ((l.filterMap (fun i => dictGet g.nodes i)).map (·.id)) =
      l.filter (fun i => (dictGet g.nodes i).isSome) := by
  intro l
  induction l with
  | nil => simp
  | cons i l ih =>
      cases h : dictGet g.nodes i with
      | none => simp [h, ih]
      | some nd =>
          have : nd.id = i := hid i nd h
          simp [h, ih, this]

theorem nodup_ids_get_neighbors {g : OrgGraph α} (hg : Inv g) (a : α)
    (dir : Direction) : ((get_neighbors g a dir).map (·.id)).Nodup := by
  rw [get_neighbors, filterMap_dictGet_map_id hg.node_val_id]
  exact (nodup_neighborIds g a dir).filter _

/-- C7 (counterexample): the claim asserts `getNeighbors(a, "outgoing")`
contains `b` iff an edge `a → b` is stored, also in the presence of dangling
edges; but after `add_relationship "a" "b"` on a graph storing neither node,
the edge exists while the neighbor list is empty. -/
theorem c7_counterexample :
    (∃ e ∈ (buildGraph [GraphOp.addRelationship "a" "b" RelationType.owns]).edges,
      e.source_id = "a" ∧ e.target_id = "b") ∧
    get_neighbors (buildGraph [GraphOp.addRelationship "a" "b" RelationType.owns])
      "a" .outgoing = [] := by
  constructor
  · exact ⟨⟨"a", "b", .owns⟩, by decide, rfl, rfl⟩
  · decide

/-- C7 (amended): on every reachable graph, `get_neighbors a "outgoing"`
contains `b` iff a stored edge `a → b` exists **and** `b` is a stored node
(the endpoint of a dangling edge is omitted); the `"both"` direction is the
union of the outgoing and incoming neighbor sets, with no duplicate ids. -/
theorem c7_get_neighbors (ops : List (GraphOp String)) (a b : String) :
    ((∃ nd ∈ get_neighbors (buildGraph ops) a .outgoing, nd.id = b) ↔
      (∃ e ∈ (buildGraph ops).edges, e.source_id = a ∧ e.target_id = b) ∧
        b ∈ nodeKeys (buildGraph ops)) ∧
    (∀ x, (∃ nd ∈ get_neighbors (buildGraph ops) a .both, nd.id = x) ↔
      ((∃ nd ∈ get_neighbors (buildGraph ops) a .outgoing, nd.id = x) ∨
        (∃ nd ∈ get_neighbors (buildGraph ops) a .incoming, nd.id = x))) ∧
    ((get_neighbors (buildGraph ops) a .both).map (·.id)).Nodup := by
  have hg := inv_buildGraph ops
  refine ⟨mem_neighbors_outgoing_iff hg a b, ?_, nodup_ids_get_neighbors hg a .both⟩
  intro x
  rw [ids_get_neighbors hg, ids_get_neighbors hg, ids_get_neighbors hg,
    mem_neighborIds_both, mem_neighborIds_outgoing, mem_neighborIds_incoming]
  tauto

/-! ### Claim C10 -/

theorem filterMap_const_some_replicate {β γ : Type} (f : β → Option γ) (x : β)
    (y : γ) (hf : f x = some y) :
    ∀ n, (List.replicate n x).filterMap f = List.replicate n y := by
  intro n
  induction n with
  | zero => simp
  | succ n ih => simp [List.replicate_succ, hf, ih]

theorem foldl_add_entity_same (eid : String) (t : EntityType) :
    ∀ (n : Nat) (l : List String),
      List.foldl applyOp
        ⟨[(eid, ⟨eid, t⟩)], [], [(t, l)], [], [], []⟩
        (List.replicate n (GraphOp.addEntity eid t)) =
      ⟨[(eid, ⟨eid, t⟩)], [], [(t, l ++ List.replicate n eid)], [], [], []⟩ := by
  intro n
  induction n with
  | zero => intro l; simp
  | succ n ih =>
      intro l
      rw [List.replicate_succ, List.foldl_cons]
      have hstep : applyOp
          (⟨[(eid, ⟨eid, t⟩)], [], [(t, l)], [], [], []⟩ : OrgGraph String)
          (GraphOp.addEntity eid t) =
          ⟨[(eid, ⟨eid, t⟩)], [], [(t, l ++ [eid])], [], [], []⟩ := by
        simp [applyOp, add_entity, dictInsert, dictAppend]
      rw [hstep, ih (l ++ [eid]), List.append_assoc]
      have : ([eid] ++ List.replicate n eid : List String) =
          List.replicate (n + 1) eid := by
        simp [List.replicate_succ]
      rw [this]

/-- C10: `add_entity` appends to the per-type index unconditionally, so n
repeated additions of the same id and type make `get_entities_by_type`
return that node n times; and re-adding an id under a different type leaves
the id listed under the old type's index, where the (retyped) node is still
returned. -/
theorem c10_add_entity_index :
    (∀ (eid : String) (t : EntityType) (n : Nat),
      get_entities_by_type
        (buildGraph (List.replicate n (GraphOp.addEntity eid t))) t =
        List.replicate n ⟨eid, t⟩) ∧
    (∀ (g : OrgGraph String) (eid : String) (t t' : EntityType), t ≠ t' →
      eid ∈ dictGetD (add_entity (add_entity g eid t) eid t').nodesByType t ∧
      (⟨eid, t'⟩ : GraphNode String) ∈
        get_entities_by_type (add_entity (add_entity g eid t) eid t') t) := by
  constructor
  · intro eid t n
    cases n with
    | zero => simp [buildGraph, get_entities_by_type, emptyGraph, dictGetD, dictGet]
    | succ n =>
        rw [buildGraph, List.replicate_succ, List.foldl_cons]
        have hfirst : applyOp (emptyGraph String) (GraphOp.addEntity eid t) =
            ⟨[(eid, ⟨eid, t⟩)], [], [(t, [eid])], [], [], []⟩ := by
          simp [applyOp, add_entity, emptyGraph, dictInsert, dictAppend]
        rw [hfirst, foldl_add_entity_same eid t n [eid]]
        rw [get_entities_by_type]
        have hget : dictGet ([(eid, (⟨eid, t⟩ : GraphNode String))]) eid =
            some ⟨eid, t⟩ := by simp [dictGet]
        have hidx : dictGetD ([(t, [eid] ++ List.replicate n eid)] :
            List (EntityType × List String)) t = List.replicate (n + 1) eid := by
          simp [dictGetD, dictGet, List.replicate_succ]
        rw [show (⟨[(eid, ⟨eid, t⟩)], [], [(t, [eid] ++ List.replicate n eid)],
          [], [], []⟩ : OrgGraph String).nodesByType =
          [(t, [eid] ++ List.replicate n eid)] from rfl, hidx]
        exact filterMap_const_some_replicate _ eid ⟨eid, t⟩ hget (n + 1)
  · intro g eid t t' hne
    have hidx : dictGetD (add_entity (add_entity g eid t) eid t').nodesByType t =
        dictGetD g.nodesByType t ++ [eid] := by
      show dictGetD (dictAppend (dictAppend g.nodesByType t eid) t' eid) t =
        dictGetD g.nodesByType t ++ [eid]
      rw [dictGetD_dictAppend_ne _ _ _ _ hne, dictGetD_dictAppend_self]
    have hmem : eid ∈ dictGetD (add_entity (add_entity g eid t) eid t').nodesByType t := by
      rw [hidx]
      simp
    refine ⟨hmem, ?_⟩
    have hnode : dictGet (add_entity (add_entity g eid t) eid t').nodes eid =
        some ⟨eid, t'⟩ := by
      show dictGet (dictInsert (dictInsert g.nodes eid ⟨eid, t⟩) eid ⟨eid, t'⟩) eid =
        some ⟨eid, t'⟩
      rw [dictGet_dictInsert_self]
    exact List.mem_filterMap.2 ⟨eid, hmem, hnode⟩

/-- C10 (witness): the second part of the theorem at a concrete graph,
discharging the distinct-type hypothesis. -/
theorem c10_witness :
    "x" ∈ dictGetD
      (add_entity (add_entity (emptyGraph String) "x" .team) "x" .member).nodesByType
      .team ∧
    (⟨"x", .member⟩ : GraphNode String) ∈
      get_entities_by_type
        (add_entity (add_entity (emptyGraph String) "x" .team) "x" .member) .team :=
  c10_add_entity_index.2 (emptyGraph String) "x" .team .member (by decide)

/-- Certification that `get_entities_by_type`'s total lookup never misses on
reachable graphs, matching the Python direct indexing. -/
theorem get_entities_by_type_total (ops : List (GraphOp String)) (t : EntityType) :
    ∀ i ∈ dictGetD (buildGraph ops).nodesByType t,
      (dictGet (buildGraph ops).nodes i).isSome := by
  intro i hi
  have hg := inv_buildGraph ops
  exact (dictGet_isSome_iff _ _).2 (hg.type_index_sub t i hi)

/-! ### Claim C6: `OrgGraph.compute_centrality` (fallback) -/

/-- `OrgGraph.compute_centrality` (fallback branch): for each stored node,
(out-degree + in-degree) / max(nodeCount − 1, 1), degrees read off the edge
indices.  Python divides machine integers in floating point; the exact
rational quotient is embedded (the claims concern the defining formula and
its bounds).  For an empty node dictionary the map is empty, so the Nat
subtraction agrees with Python's int subtraction on every produced entry. -/
def centralityOf (g : OrgGraph α) (x : α) : ℚ :=
  (((dictGetD g.edgesBySource x).length +
    (dictGetD g.edgesByTarget x).length : ℕ) : ℚ) /
  ((max (g.nodes.length - 1) 1 : ℕ) : ℚ)

/-- The dictionary `compute_centrality` returns: every stored node id mapped
to its degree centrality. -/
def compute_centrality (g : OrgGraph α) : List (α × ℚ) :=
  g.nodes.map (fun p => (p.1, centralityOf g p.1))

theorem dictGet_map_keyed {β : Type} (l : List (α × β)) {γ : Type} (f : α → γ)
    (k : α) :
    dictGet (l.map (fun p => (p.1, f p.1))) k = (dictGet l k).map (fun _ => f k) := by
  induction l with
  | nil => simp [dictGet]
  | cons p rest ih =>
      obtain ⟨k', v⟩ := p
      by_cases hk : k' = k
      · subst hk
        simp [dictGet]
      · simp [dictGet, hk, ih]

/-- Operation sequence for the C6 counterexample: one stored node carrying a
self-loop edge. -/
def c6ops : List (GraphOp String) :=
  [GraphOp.addEntity "a" EntityType.organization,
    GraphOp.addRelationship "a" "a" RelationType.owns]

/-- C6 (counterexample): one stored node with a self-loop gets centrality 2,
so the claimed bound `≤ 1` fails, as does the clause that a one-node graph
yields centrality 0. -/
theorem c6_counterexample :
    dictGet (compute_centrality (buildGraph c6ops)) "a" = some 2 ∧
    (buildGraph c6ops).nodes.length = 1 ∧
    ¬ ((2 : ℚ) ≤ 1) := by
  refine ⟨?_, by decide, by norm_num⟩
  rw [compute_centrality, dictGet_map_keyed _ (centralityOf (buildGraph c6ops))]
  rw [show dictGet (buildGraph c6ops).nodes "a" =
    some ⟨"a", EntityType.organization⟩ from by decide]
  simp only [Option.map_some', Option.some.injEq]
  rw [centralityOf]
  rw [show (dictGetD (buildGraph c6ops).edgesBySource "a").length = 1 from by decide]
  rw [show (dictGetD (buildGraph c6ops).edgesByTarget "a").length = 1 from by decide]
  rw [show (buildGraph c6ops).nodes.length = 1 from by decide]
  norm_num

/-- C6 (amended): every centrality entry equals
(out-degree + in-degree) / max(nodeCount − 1, 1) over the stored edge list
and is nonnegative, and a single-node graph **with no edges** yields 0.  The
original claim's upper bound 1, and centrality 0 for every one-node graph,
fail in general (duplicate edges, self-loops and the summed in+out degree
can push the quotient above 1 — see the counterexample). -/
theorem c6_compute_centrality (ops : List (GraphOp String)) (eid : String) (c : ℚ)
    (h : dictGet (compute_centrality (buildGraph ops)) eid = some c) :
    c = (((buildGraph ops).edges.countP (fun e => e.source_id = eid) +
          (buildGraph ops).edges.countP (fun e => e.target_id = eid) : ℕ) : ℚ) /
        ((max ((buildGraph ops).nodes.length - 1) 1 : ℕ) : ℚ) ∧
    0 ≤ c ∧
    ((buildGraph ops).nodes.length = 1 → (buildGraph ops).edges = [] → c = 0) := by
  have hg := inv_buildGraph ops
  rw [compute_centrality,
    dictGet_map_keyed _ (centralityOf (buildGraph ops))] at h
  cases hnd : dictGet (buildGraph ops).nodes eid with
  | none => rw [hnd] at h; cases h
  | some nd =>
      rw [hnd] at h
      simp only [Option.map_some', Option.some.injEq] at h
      subst h
      rw [centralityOf]
      have hsrc : (dictGetD (buildGraph ops).edgesBySource eid).length =
          (buildGraph ops).edges.countP (fun e => e.source_id = eid) := by
        rw [hg.src_index eid, ← List.countP_eq_length_filter]
      have htgt : (dictGetD (buildGraph ops).edgesByTarget eid).length =
          (buildGraph ops).edges.countP (fun e => e.target_id = eid) := by
        rw [hg.tgt_index eid, ← List.countP_eq_length_filter]
      refine ⟨by rw [hsrc, htgt], ?_, ?_⟩
      · apply div_nonneg <;> exact Nat.cast_nonneg _
      · intro _ hedges
        rw [hsrc, htgt, hedges]
        simp

/-! ### `OrgGraph.find_clusters`: connected components (fallback DFS)

The in-repo fallback does a recursive DFS per unvisited node, following
`get_neighbors(node, "both")`.  It is embedded as a worklist traversal
(push the undirected neighbors, check visitedness at pop time), which
produces the same visited set and the same cluster sets as the recursive
call tree.  The worklist carries ids with proofs of membership in the
(static) id pool `allIds`, which only makes the termination measure
expressible — the carried values are exactly the Python ids. -/

/-- Ids reachable in one undirected step from `a`: the ids of
`get_neighbors(a, "both")` — stored nodes joined to `a` by a stored edge in
either direction. -/
def bothIds (g : OrgGraph α) (a : α) : List α :=
  (get_neighbors g a .both).map (·.id)

/-- One undirected traversal step of `find_clusters`. -/
def ustep (g : OrgGraph α) (a b : α) : Prop :=
  b ∈ bothIds g a

instance (g : OrgGraph α) (a b : α) : Decidable (ustep g a b) := by
  unfold ustep
  infer_instance

/-- The static pool of ids a cluster traversal can ever see: dictionary keys
(the loop over `self.nodes`) and stored node ids (neighbor results). -/
def allIds (g : OrgGraph α) : List α :=
  nodeKeys g ++ nodeIdVals g

theorem id_mem_allIds_of_mem_get_neighbors {g : OrgGraph α} {a : α}
    {dir : Direction} {nd : GraphNode α} (h : nd ∈ get_neighbors g a dir) :
    nd.id ∈ allIds g := by
  rw [mem_get_neighbors] at h
  obtain ⟨i, _, hget⟩ := h
  exact List.mem_append.2 (Or.inr (List.mem_map.2 ⟨(i, nd), dictGet_mem hget, rfl⟩))

/-- The undirected neighbors of `a` as worklist entries. -/
def nbrStack (g : OrgGraph α) (a : α) : List {x : α // x ∈ allIds g} :=
  (get_neighbors g a .both).attach.map
    (fun nd => ⟨nd.1.id, id_mem_allIds_of_mem_get_neighbors nd.2⟩)

theorem filter_length_lt_of_mem {l visited : List α} {x : α}
    (hx : x ∈ l) (hnx : x ∉ visited) :
    ((l.filter (fun y => y ∉ visited ++ [x])).length <
      (l.filter (fun y => y ∉ visited)).length) := by
  have h := @filter_not_mem_append_length _ _ l [x] visited
    (List.nodup_singleton x)
    (by
      intro y hy
      simp only [List.mem_singleton] at hy
      subst hy
      exact ⟨hx, hnx⟩)
  simp only [List.length_singleton] at h
  omega

/-- The recursive `dfs(node_id, cluster)` of `find_clusters`, as a worklist:
pop an id; if already visited skip it, otherwise mark it visited, add it to
the cluster and push its undirected neighbors. -/
def dfsCollect (g : OrgGraph α) :
    List {x : α // x ∈ allIds g} → List α → List α → List α × List α
  | [], visited, cluster => (visited, cluster)
  | n :: rest, visited, cluster =>
      if h : n.1 ∈ visited then dfsCollect g rest visited cluster
      else dfsCollect g (nbrStack g n.1 ++ rest) (visited ++ [n.1])
        (setAdd cluster n.1)
termination_by stack visited _ =>
  (((allIds g).filter (fun x => x ∉ visited)).length, stack.length)
decreasing_by
  · exact Prod.Lex.right _ (Nat.lt_succ_self _)
  · exact Prod.Lex.left _ _ (filter_length_lt_of_mem n.2 h)

/-- The `for node_id in self.nodes:` loop of `find_clusters`: start a DFS
with a fresh cluster at every not-yet-visited node. -/
def clustersLoop (g : OrgGraph α) :
    List {x : α // x ∈ allIds g} → List α → List (List α) → List (List α)
  | [], _, acc => acc
  | n :: rest, visited, acc =>
      if n.1 ∈ visited then clustersLoop g rest visited acc
      else
        clustersLoop g rest (dfsCollect g [n] visited []).1
          (acc ++ [(dfsCollect g [n] visited []).2])

/-- The keys of the node dictionary as worklist entries. -/
def nodeKeyStack (g : OrgGraph α) : List {x : α // x ∈ allIds g} :=
  g.nodes.attach.map
    (fun p => ⟨p.1.1, List.mem_append.2 (Or.inl (List.mem_map.2 ⟨p.1, p.2, rfl⟩))⟩)

/-- `OrgGraph.find_clusters` (fallback): clusters are Python sets, embedded
as duplicate-free lists. -/
def find_clusters (g : OrgGraph α) : List (List α) :=
  clustersLoop g (nodeKeyStack g) [] []

theorem mem_nbrStack_of_mem_bothIds {g : OrgGraph α} {a m : α}
    (h : m ∈ bothIds g a) : ∃ s ∈ nbrStack g a, s.1 = m := by
  rw [bothIds] at h
  obtain ⟨nd, hnd, rfl⟩ := List.mem_map.1 h
  refine ⟨⟨nd.id, id_mem_allIds_of_mem_get_neighbors hnd⟩, ?_, rfl⟩
  rw [nbrStack]
  exact List.mem_map.2 ⟨⟨nd, hnd⟩, List.mem_attach _ _, rfl⟩

/-- Behaviour of one full DFS: it extends the visited list by a
duplicate-free batch `fresh` of previously unvisited ids, appends exactly
that batch to the cluster, visits every id on its worklist, and leaves no
undirected neighbor of a fresh id outside the final visited list. -/
theorem dfsCollect_spec (g : OrgGraph α) :
    ∀ (stack : List {x : α // x ∈ allIds g}) (visited cluster : List α),
      (∀ x ∈ cluster, x ∈ visited) →
      ∃ fresh : List α,
        (dfsCollect g stack visited cluster).1 = visited ++ fresh ∧
        (dfsCollect g stack visited cluster).2 = cluster ++ fresh ∧
        fresh.Nodup ∧
        (∀ x ∈ fresh, x ∉ visited) ∧
        (∀ s ∈ stack, s.1 ∈ (dfsCollect g stack visited cluster).1) ∧
        (∀ x ∈ fresh, ∀ m, ustep g x m →
          m ∈ (dfsCollect g stack visited cluster).1) ∧
        (∀ x ∈ fresh, x ∈ allIds g) := by
  intro stack visited cluster
  induction stack, visited, cluster using dfsCollect.induct g with
  | case1 visited cluster =>
      intro _
      refine ⟨[], by simp [dfsCollect], by simp [dfsCollect], List.nodup_nil,
        by simp, by simp, by simp, by simp⟩
  | case2 n rest visited cluster h ih =>
      intro hcv
      obtain ⟨fresh, h1, h2, h3, h4, h5, h6, h7⟩ := ih hcv
      have hstep : dfsCollect g (n :: rest) visited cluster =
          dfsCollect g rest visited cluster := by
        rw [dfsCollect]
        simp [h]
      rw [hstep]
      refine ⟨fresh, h1, h2, h3, h4, ?_, h6, h7⟩
      intro s hs
      rcases List.mem_cons.1 hs with rfl | hs
      · rw [h1]
        exact List.mem_append.2 (Or.inl h)
      · exact h5 s hs
  | case3 n rest visited cluster h ih =>
      intro hcv
      have hcv' : ∀ x ∈ setAdd cluster n.1, x ∈ visited ++ [n.1] := by
        intro x hx
        rcases mem_setAdd.1 hx with hx | rfl
        · exact List.mem_append.2 (Or.inl (hcv x hx))
        · exact List.mem_append.2 (Or.inr (List.mem_singleton.2 rfl))
      obtain ⟨fresh, h1, h2, h3, h4, h5, h6, h7⟩ := ih hcv'
      have hstep : dfsCollect g (n :: rest) visited cluster =
          dfsCollect g (nbrStack g n.1 ++ rest) (visited ++ [n.1])
            (setAdd cluster n.1) := by
        rw [dfsCollect]
        simp [h]
      rw [hstep]
      have hnc : n.1 ∉ cluster := fun hmem => h (hcv n.1 hmem)
      have hsetadd : setAdd cluster n.1 = cluster ++ [n.1] := by
        rw [setAdd, if_neg hnc]
      have hnf : n.1 ∉ fresh := fun hmem =>
        (h4 n.1 hmem) (List.mem_append.2 (Or.inr (List.mem_singleton.2 rfl)))
      refine ⟨n.1 :: fresh, ?_, ?_, List.nodup_cons.2 ⟨hnf, h3⟩, ?_, ?_, ?_, ?_⟩
      · rw [h1]
        simp
      · rw [h2, hsetadd]
        simp
      · intro x hx
        rcases List.mem_cons.1 hx with rfl | hx
        · exact h
        · intro hv
          exact h4 x hx (List.mem_append.2 (Or.inl hv))
      · intro s hs
        rcases List.mem_cons.1 hs with rfl | hs
        · rw [h1]
          exact List.mem_append.2 (Or.inl (List.mem_append.2 (Or.inr (by simp))))
        · exact h5 s (List.mem_append.2 (Or.inr hs))
      · intro x hx m hm
        rcases List.mem_cons.1 hx with rfl | hx
        · obtain ⟨s, hs, rfl⟩ := mem_nbrStack_of_mem_bothIds hm
          exact h5 s (List.mem_append.2 (Or.inl hs))
        · exact h6 x hx m hm
      · intro x hx
        rcases List.mem_cons.1 hx with rfl | hx
        · exact n.2
        · exact h7 x hx

/-- Starting a DFS on an unvisited root puts the root in the fresh batch. -/
theorem dfsCollect_root_fresh (g : OrgGraph α) (n : {x : α // x ∈ allIds g})
    (visited : List α) (hn : n.1 ∉ visited) {fresh : List α}
    (h1 : (dfsCollect g [n] visited []).1 = visited ++ fresh)
    (h5 : ∀ s ∈ [n], s.1 ∈ (dfsCollect g [n] visited []).1) :
    n.1 ∈ fresh := by
  have := h5 n (List.mem_singleton.2 rfl)
  rw [h1] at this
  rcases List.mem_append.1 this with hmem | hmem
  · exact absurd hmem hn
  · exact hmem

/-- Everything a DFS newly visits is reached from its worklist by undirected
steps: any property holding on the worklist and preserved by `ustep` holds
on every id of the final visited list that was not already visited. -/
theorem dfsCollect_reach (g : OrgGraph α) (P : α → Prop)
    (hstep : ∀ y z, P y → ustep g y z → P z) :
    ∀ (stack : List {x : α // x ∈ allIds g}) (visited cluster : List α),
      (∀ s ∈ stack, P s.1 ∨ s.1 ∈ visited) →
      ∀ x ∈ (dfsCollect g stack visited cluster).1, x ∈ visited ∨ P x := by
  intro stack visited cluster
  induction stack, visited, cluster using dfsCollect.induct g with
  | case1 visited cluster =>
      intro _ x hx
      rw [dfsCollect] at hx
      exact Or.inl hx
  | case2 n rest visited cluster h ih =>
      intro hstack x hx
      have hstep' : dfsCollect g (n :: rest) visited cluster =
          dfsCollect g rest visited cluster := by
        rw [dfsCollect]
        simp [h]
      rw [hstep'] at hx
      exact ih (fun s hs => hstack s (List.mem_cons_of_mem _ hs)) x hx
  | case3 n rest visited cluster h ih =>
      intro hstack x hx
      have hPn : P n.1 := by
        rcases hstack n (List.mem_cons_self _ _) with hp | hv
        · exact hp
        · exact absurd hv h
      have hstep' : dfsCollect g (n :: rest) visited cluster =
          dfsCollect g (nbrStack g n.1 ++ rest) (visited ++ [n.1])
            (setAdd cluster n.1) := by
        rw [dfsCollect]
        simp [h]
      rw [hstep'] at hx
      have hstack' : ∀ s ∈ nbrStack g n.1 ++ rest,
          P s.1 ∨ s.1 ∈ visited ++ [n.1] := by
        intro s hs
        rcases List.mem_append.1 hs with hs | hs
        · left
          rw [nbrStack] at hs
          obtain ⟨nd, _, rfl⟩ := List.mem_map.1 hs
          exact hstep n.1 nd.1.id hPn
            (by rw [ustep, bothIds]; exact List.mem_map.2 ⟨nd.1, nd.2, rfl⟩)
        · rcases hstack s (List.mem_cons_of_mem _ hs) with hp | hv
          · exact Or.inl hp
          · exact Or.inr (List.mem_append.2 (Or.inl hv))
      rcases ih hstack' x hx with hv | hp
      · rcases List.mem_append.1 hv with hv | hv
        · exact Or.inl hv
        · simp only [List.mem_singleton] at hv
          subst hv
          exact Or.inr hPn
      · exact Or.inr hp

theorem dictGet_of_mem_nodup {β : Type} {m : List (α × β)} {k : α} {v : β}
    (hnd : (m.map (·.1)).Nodup) (hmem : (k, v) ∈ m) : dictGet m k = some v := by
  induction m with
  | nil => simp at hmem
  | cons p rest ih =>
      obtain ⟨k', v'⟩ := p
      simp only [List.map_cons, List.nodup_cons] at hnd
      rcases List.mem_cons.1 hmem with heq | hmem'
      · cases heq
        simp [dictGet]
      · have hne : k' ≠ k := by
          intro hk
          subst hk
          exact hnd.1 (List.mem_map.2 ⟨(k', v), hmem', rfl⟩)
        simp only [dictGet, if_neg hne]
        exact ih hnd.2 hmem'

theorem mem_allIds_iff_mem_nodeKeys {g : OrgGraph α} (hg : Inv g) (x : α) :
    x ∈ allIds g ↔ x ∈ nodeKeys g := by
  constructor
  · intro hx
    rcases List.mem_append.1 hx with hx | hx
    · exact hx
    · obtain ⟨p, hp, rfl⟩ := List.mem_map.1 hx
      obtain ⟨k, v⟩ := p
      have hid : v.id = k :=
        hg.node_val_id k v (dictGet_of_mem_nodup hg.keys_nodup hp)
      rw [hid]
      exact List.mem_map.2 ⟨(k, v), hp, rfl⟩
  · intro hx
    exact List.mem_append.2 (Or.inl hx)

/-- Under the index invariant, an undirected step from `a` to `b` is
exactly: some stored edge joins `a` and `b` (in either direction) and `b` is
a stored node. -/
theorem ustep_iff {g : OrgGraph α} (hg : Inv g) (a b : α) :
    ustep g a b ↔
      (∃ e ∈ g.edges, (e.source_id = a ∧ e.target_id = b) ∨
        (e.source_id = b ∧ e.target_id = a)) ∧ b ∈ nodeKeys g := by
  have hmap : b ∈ bothIds g a ↔ ∃ nd ∈ get_neighbors g a .both, nd.id = b := by
    rw [bothIds]
    simp [List.mem_map]
  rw [ustep, hmap, ids_get_neighbors hg, mem_neighborIds_both,
    hg.src_index, hg.tgt_index]
  simp only [List.mem_map, List.mem_filter, decide_eq_true_eq]
  constructor
  · rintro ⟨⟨e, ⟨he, hsrc⟩, htgt⟩ | ⟨e, ⟨he, htgt⟩, hsrc⟩, hb⟩
    · exact ⟨⟨e, he, Or.inl ⟨hsrc, htgt⟩⟩, hb⟩
    · exact ⟨⟨e, he, Or.inr ⟨hsrc, htgt⟩⟩, hb⟩
  · rintro ⟨⟨e, he, ⟨hsrc, htgt⟩ | ⟨hsrc, htgt⟩⟩, hb⟩
    · exact ⟨Or.inl ⟨e, ⟨he, hsrc⟩, htgt⟩, hb⟩
    · exact ⟨Or.inr ⟨e, ⟨he, htgt⟩, hsrc⟩, hb⟩

theorem ustep_target_mem_keys {g : OrgGraph α} (hg : Inv g) {a b : α}
    (h : ustep g a b) : b ∈ nodeKeys g :=
  ((ustep_iff hg a b).1 h).2

theorem ustep_symm {g : OrgGraph α} (hg : Inv g) {a b : α}
    (ha : a ∈ nodeKeys g) (h : ustep g a b) : ustep g b a := by
  rw [ustep_iff hg] at h ⊢
  obtain ⟨⟨e, he, hdir⟩, _⟩ := h
  exact ⟨⟨e, he, hdir.symm⟩, ha⟩

theorem chainFrom_trans {r : α → α → Prop} :
    ∀ (q₂ : List α) (x y z : α) (q₁ : List α),
      ChainFrom r x y q₁ → ChainFrom r y z q₂ → ∃ q₃, ChainFrom r x z q₃
  | [], _, _, _, _, _, h2 => by simp [ChainFrom] at h2
  | [w], x, y, z, q₁, h1, h2 => by
      obtain ⟨_, hh, hl⟩ := h2
      simp only [List.head?_cons, Option.some.injEq] at hh
      simp only [List.getLast?_singleton, Option.some.injEq] at hl
      subst hh
      subst hl
      exact ⟨q₁, h1⟩
  | w :: w2 :: rest, x, y, z, q₁, h1, h2 => by
      obtain ⟨hch, hh, hl⟩ := h2
      simp only [List.head?_cons, Option.some.injEq] at hh
      subst hh
      obtain ⟨hr, hch'⟩ := List.chain'_cons.1 hch
      exact chainFrom_trans (w2 :: rest) x w2 z (q₁ ++ [w2]) (h1.snoc hr)
        ⟨hch', rfl, by simpa using hl⟩

theorem chainFrom_reverse_on {r : α → α → Prop} {S : List α}
    (hsym : ∀ a b, a ∈ S → r a b → r b a)
    (hmem : ∀ a b, r a b → b ∈ S) :
    ∀ (q : List α) (x y : α), ChainFrom r x y q → x ∈ S →
      ∃ q', ChainFrom r y x q'
  | [], _, _, h, _ => by simp [ChainFrom] at h
  | [w], x, y, h, hx => by
      obtain ⟨_, hh, hl⟩ := h
      simp only [List.head?_cons, Option.some.injEq] at hh
      simp only [List.getLast?_singleton, Option.some.injEq] at hl
      subst hh
      subst hl
      exact ⟨[w], chainFrom_singleton r w⟩
  | w :: w2 :: rest, x, y, h, hx => by
      obtain ⟨hch, hh, hl⟩ := h
      simp only [List.head?_cons, Option.some.injEq] at hh
      subst hh
      obtain ⟨hr, hch'⟩ := List.chain'_cons.1 hch
      obtain ⟨q', hq'⟩ := chainFrom_reverse_on hsym hmem (w2 :: rest) w2 y
        ⟨hch', rfl, by simpa using hl⟩ (hmem _ _ hr)
      exact ⟨q' ++ [w], hq'.snoc (hsym _ _ hx hr)⟩

/-- Loop invariant of `find_clusters`: the visited list is exactly the
concatenation of the clusters found so far, without duplicates; every
cluster is closed (its members' undirected neighbors lie in the clusters up
to and including it), internally connected to a root, and drawn from the id
pool. -/
structure ClustersInv (g : OrgGraph α) (visited : List α)
    (acc : List (List α)) : Prop where
  flat : visited = acc.flatten
  nodup : visited.Nodup
  closure : ∀ (i : Nat) (hi : i < acc.length), ∀ x ∈ acc[i], ∀ m,
    ustep g x m → m ∈ (acc.take (i + 1)).flatten
  conn : ∀ c ∈ acc, ∃ root ∈ c, ∀ x ∈ c, ∃ q, ChainFrom (ustep g) root x q
  sub_all : ∀ x ∈ visited, x ∈ allIds g

theorem clustersLoop_spec (g : OrgGraph α) :
    ∀ (pending : List {x : α // x ∈ allIds g}) (visited : List α)
      (acc : List (List α)), ClustersInv g visited acc →
      ClustersInv g (clustersLoop g pending visited acc).flatten
          (clustersLoop g pending visited acc) ∧
        (∀ x ∈ visited, x ∈ (clustersLoop g pending visited acc).flatten) ∧
        (∀ s ∈ pending, s.1 ∈ (clustersLoop g pending visited acc).flatten) := by
  intro pending
  induction pending with
  | nil =>
      intro visited acc hinv
      refine ⟨?_, ?_, by simp⟩
      · rw [clustersLoop, ← hinv.flat]
        exact hinv
      · intro x hx
        rw [clustersLoop, ← hinv.flat]
        exact hx
  | cons n rest ih =>
      intro visited acc hinv
      by_cases hn : n.1 ∈ visited
      · have hstep : clustersLoop g (n :: rest) visited acc =
            clustersLoop g rest visited acc := by
          rw [clustersLoop]
          simp [hn]
        rw [hstep]
        obtain ⟨hinv', hmono, hpend⟩ := ih visited acc hinv
        refine ⟨hinv', hmono, ?_⟩
        intro s hs
        rcases List.mem_cons.1 hs with rfl | hs
        · exact hmono _ hn
        · exact hpend s hs
      · have hstep : clustersLoop g (n :: rest) visited acc =
            clustersLoop g rest (dfsCollect g [n] visited []).1
              (acc ++ [(dfsCollect g [n] visited []).2]) := by
          rw [clustersLoop]
          simp [hn]
        obtain ⟨fresh, h1, h2, h3, h4, h5, h6, h7⟩ :=
          dfsCollect_spec g [n] visited [] (by simp)
        simp only [List.nil_append] at h2
        have hroot : n.1 ∈ fresh := dfsCollect_root_fresh g n visited hn h1 h5
        have hinv' : ClustersInv g (dfsCollect g [n] visited []).1
            (acc ++ [(dfsCollect g [n] visited []).2]) := by
          constructor
          · rw [h1, h2, List.flatten_append, ← hinv.flat]
            simp
          · rw [h1]
            refine List.Nodup.append hinv.nodup h3 ?_
            intro a ha hafresh
            exact h4 a hafresh ha
          · intro i hi x hx m hm
            rw [List.length_append, List.length_singleton] at hi
            by_cases hia : i < acc.length
            · have hxacc : x ∈ acc[i] := by
                rwa [List.getElem_append_left hia] at hx
              have := hinv.closure i hia x hxacc m hm
              have htake : (acc ++ [(dfsCollect g [n] visited []).2]).take (i + 1) =
                  acc.take (i + 1) := List.take_append_of_le_length hia
              rw [htake]
              exact this
            · have hieq : i = acc.length := by omega
              subst hieq
              have hxc : x ∈ (dfsCollect g [n] visited []).2 := by
                rw [List.getElem_append_right (Nat.le_refl _)] at hx
                simpa using hx
              rw [h2] at hxc
              have hm' : m ∈ (dfsCollect g [n] visited []).1 := h6 x hxc m hm
              have htake : (acc ++ [(dfsCollect g [n] visited []).2]).take
                  (acc.length + 1) = acc ++ [(dfsCollect g [n] visited []).2] := by
                apply List.take_of_length_le
                simp
              rw [htake, List.flatten_append]
              rw [h1] at hm'
              rcases List.mem_append.1 hm' with hmv | hmf
              · exact List.mem_append.2 (Or.inl (by rwa [← hinv.flat]))
              · exact List.mem_append.2 (Or.inr (by simpa [h2] using hmf))
          · intro c hc
            rcases List.mem_append.1 hc with hc | hc
            · exact hinv.conn c hc
            · simp only [List.mem_singleton] at hc
              subst hc
              rw [h2]
              refine ⟨n.1, hroot, ?_⟩
              intro x hx
              have hreach := dfsCollect_reach g
                (fun z => ∃ q, ChainFrom (ustep g) n.1 z q)
                (fun y z ⟨q, hq⟩ hyz => ⟨q ++ [z], hq.snoc hyz⟩)
                [n] visited []
                (by
                  intro s hs
                  rcases List.mem_cons.1 hs with rfl | hs
                  · exact Or.inl ⟨[s.1], chainFrom_singleton _ s.1⟩
                  · simp at hs)
              have hxv : x ∈ (dfsCollect g [n] visited []).1 := by
                rw [h1]
                exact List.mem_append.2 (Or.inr hx)
              rcases hreach x hxv with hv | hp
              · exact absurd hv (h4 x hx)
              · exact hp
          · intro x hx
            rw [h1] at hx
            rcases List.mem_append.1 hx with hx | hx
            · exact hinv.sub_all x hx
            · exact h7 x hx
        rw [hstep]
        obtain ⟨hres, hmono, hpend⟩ := ih _ _ hinv'
        refine ⟨hres, ?_, ?_⟩
        · intro x hx
          exact hmono x (by rw [h1]; exact List.mem_append.2 (Or.inl hx))
        · intro s hs
          rcases List.mem_cons.1 hs with rfl | hs
          · exact hmono s.1 (h5 s (List.mem_singleton.2 rfl))
          · exact hpend s hs

theorem mem_nodeKeyStack (g : OrgGraph α) (x : α) :
    (∃ s ∈ nodeKeyStack g, s.1 = x) ↔ x ∈ nodeKeys g := by
  rw [nodeKeyStack]
  constructor
  · rintro ⟨s, hs, rfl⟩
    obtain ⟨p, _, rfl⟩ := List.mem_map.1 hs
    exact List.mem_map.2 ⟨p.1, p.2, rfl⟩
  · intro hx
    obtain ⟨p, hp, rfl⟩ := List.mem_map.1 hx
    exact ⟨⟨p.1, List.mem_append.2 (Or.inl (List.mem_map.2 ⟨p, hp, rfl⟩))⟩,
      List.mem_map.2 ⟨⟨p, hp⟩, List.mem_attach _ _, rfl⟩, rfl⟩

theorem clusters_unique {CS : List (List α)} (hnd : CS.flatten.Nodup)
    {x : α} {i j : Nat} (hi : i < CS.length) (hj : j < CS.length)
    (hxi : x ∈ CS[i]) (hxj : x ∈ CS[j]) : i = j := by
  have hpw := (List.nodup_flatten.1 hnd).2
  rw [List.pairwise_iff_getElem] at hpw
  by_contra hne
  rcases Nat.lt_or_ge i j with hij | hij
  · exact hpw i j hi hj hij hxi hxj
  · have hji : j < i := by omega
    exact hpw j i hj hi hji hxj hxi

/-- In the final state of `find_clusters`, the undirected step relation
cannot leave a cluster: a neighbor of a member is in the same cluster. -/
theorem cluster_closed_step {g : OrgGraph α} (hg : Inv g)
    {CS : List (List α)} (hci : ClustersInv g CS.flatten CS)
    (hsub : ∀ c ∈ CS, ∀ x ∈ c, x ∈ nodeKeys g)
    {i : Nat} (hi : i < CS.length) {x m : α}
    (hx : x ∈ CS[i]) (hm : ustep g x m) : m ∈ CS[i] := by
  have hcl := hci.closure i hi x hx m hm
  obtain ⟨l, hl, hml⟩ := List.mem_flatten.1 hcl
  obtain ⟨k, hk, rfl⟩ := List.mem_iff_getElem.1 hl
  have hk' : k < i + 1 := by
    have := hk
    simp only [List.length_take] at this
    omega
  have hkcs : k < CS.length := by
    have := hk
    simp only [List.length_take] at this
    omega
  rw [List.getElem_take] at hml
  by_cases hki : k = i
  · subst hki
    exact hml
  · exfalso
    have hklt : k < i := by omega
    -- symmetric step from m back to x lands x in the closure of cluster k
    have hxkeys : x ∈ nodeKeys g := hsub _ (List.getElem_mem hi) x hx
    have hmx : ustep g m x := ustep_symm hg hxkeys hm
    have hclk := hci.closure k hkcs m hml x hmx
    obtain ⟨l', hl', hxl'⟩ := List.mem_flatten.1 hclk
    obtain ⟨k2, hk2, rfl⟩ := List.mem_iff_getElem.1 hl'
    have hk2cs : k2 < CS.length := by
      have := hk2
      simp only [List.length_take] at this
      omega
    have hk2le : k2 < k + 1 := by
      have := hk2
      simp only [List.length_take] at this
      omega
    rw [List.getElem_take] at hxl'
    have := clusters_unique hci.nodup hk2cs hi hxl' hx
    omega

/-- C5 (amended): `find_clusters` partitions exactly the stored node set —
every node id lies in exactly one returned cluster, clusters contain only
node ids — and two node ids share a cluster iff an undirected walk of
stored edges **through stored nodes** joins them.  (The original claim's
connectivity direction with walks through non-stored dangling endpoints is
refuted by the counterexample.) -/
theorem c5_find_clusters (ops : List (GraphOp String)) :
    (∀ x ∈ nodeKeys (buildGraph ops),
      ∃ c ∈ find_clusters (buildGraph ops), x ∈ c) ∧
    (∀ c ∈ find_clusters (buildGraph ops), ∀ x ∈ c,
      x ∈ nodeKeys (buildGraph ops)) ∧
    (∀ (x : String) (i j : Nat) (hi : i < (find_clusters (buildGraph ops)).length)
      (hj : j < (find_clusters (buildGraph ops)).length),
      x ∈ (find_clusters (buildGraph ops))[i] →
      x ∈ (find_clusters (buildGraph ops))[j] → i = j) ∧
    (∀ a b, a ∈ nodeKeys (buildGraph ops) → b ∈ nodeKeys (buildGraph ops) →
      ((∃ c ∈ find_clusters (buildGraph ops), a ∈ c ∧ b ∈ c) ↔
        ∃ q, ChainFrom (ustep (buildGraph ops)) a b q)) := by
  have hg := inv_buildGraph ops
  have hinv0 : ClustersInv (buildGraph ops) [] [] := by
    constructor <;> simp
  obtain ⟨hci, _, hpend⟩ :=
    clustersLoop_spec (buildGraph ops) (nodeKeyStack (buildGraph ops)) [] [] hinv0
  rw [show clustersLoop (buildGraph ops) (nodeKeyStack (buildGraph ops)) [] [] =
    find_clusters (buildGraph ops) from rfl] at hci hpend
  have hcover : ∀ x ∈ nodeKeys (buildGraph ops),
      ∃ c ∈ find_clusters (buildGraph ops), x ∈ c := by
    intro x hx
    obtain ⟨s, hs, rfl⟩ := (mem_nodeKeyStack (buildGraph ops) x).2 hx
    exact List.mem_flatten.1 (hpend s hs)
  have hsub : ∀ c ∈ find_clusters (buildGraph ops), ∀ x ∈ c,
      x ∈ nodeKeys (buildGraph ops) := by
    intro c hc x hx
    exact (mem_allIds_iff_mem_nodeKeys hg x).1
      (hci.sub_all x (List.mem_flatten.2 ⟨c, hc, hx⟩))
  refine ⟨hcover, hsub, ?_, ?_⟩
  · intro x i j hi hj hxi hxj
    exact clusters_unique hci.nodup hi hj hxi hxj
  · intro a b ha hb
    constructor
    · rintro ⟨c, hc, hac, hbc⟩
      obtain ⟨root, hrc, hconn⟩ := hci.conn c hc
      obtain ⟨qa, hqa⟩ := hconn a hac
      obtain ⟨qb, hqb⟩ := hconn b hbc
      have hrkeys : root ∈ nodeKeys (buildGraph ops) := hsub c hc root hrc
      obtain ⟨qa', hqa'⟩ := chainFrom_reverse_on
        (fun u v hu huv => ustep_symm hg hu huv)
        (fun u v huv => ustep_target_mem_keys hg huv)
        qa root a hqa hrkeys
      exact chainFrom_trans qb a root b qa' hqa' hqb
    · rintro ⟨q, hq⟩
      obtain ⟨c, hc, hac⟩ := hcover a ha
      obtain ⟨i, hi, rfl⟩ := List.mem_iff_getElem.1 hc
      have hclosed : ∀ v ∈ (find_clusters (buildGraph ops))[i], ∀ m,
          ustep (buildGraph ops) v m → m ∈ (find_clusters (buildGraph ops))[i] :=
        fun v hv m hm => cluster_closed_step hg hci hsub hi hv hm
      have hbc := chainFrom_stay hclosed q a b hq hac
      exact ⟨(find_clusters (buildGraph ops))[i], List.getElem_mem hi, hac, hbc⟩

/-- One undirected edge step ignoring node storage — the literal reading of
"connected by some undirected path of stored edges" in the original claim. -/
def rawUStep (g : OrgGraph α) (x y : α) : Prop :=
  ∃ e ∈ g.edges, (e.source_id = x ∧ e.target_id = y) ∨
    (e.source_id = y ∧ e.target_id = x)

instance (g : OrgGraph α) (x y : α) : Decidable (rawUStep g x y) := by
  unfold rawUStep
  infer_instance

/-- Operation sequence for the C5 counterexample: stored nodes `a`, `b`
joined only through the non-stored id `x` by dangling edges. -/
def c5ops : List (GraphOp String) :=
  [.addEntity "a" .organization, .addEntity "b" .repository,
    .addRelationship "a" "x" .owns, .addRelationship "x" "b" .owns]

theorem c5pa : "a" ∈ allIds (buildGraph c5ops) := by decide

theorem c5pb : "b" ∈ allIds (buildGraph c5ops) := by decide

theorem c5_dfs_a :
    dfsCollect (buildGraph c5ops) [⟨"a", c5pa⟩] [] [] = (["a"], ["a"]) := by
  rw [dfsCollect, dif_neg (by decide)]
  show dfsCollect (buildGraph c5ops) [] ["a"] ["a"] = (["a"], ["a"])
  rw [dfsCollect]

theorem c5_dfs_b :
    dfsCollect (buildGraph c5ops) [⟨"b", c5pb⟩] ["a"] [] = (["a", "b"], ["b"]) := by
  rw [dfsCollect, dif_neg (by decide)]
  show dfsCollect (buildGraph c5ops) [] ["a", "b"] ["b"] = (["a", "b"], ["b"])
  rw [dfsCollect]

/-- C5 (counterexample): on the graph of `c5ops`, the stored nodes `a` and
`b` are joined by an undirected path of stored edges (`a–x–b`, through the
dangling id `x`), yet `find_clusters` separates them — refuting the claimed
"same set iff connected by some undirected path of stored edges". -/
theorem c5_counterexample :
    find_clusters (buildGraph c5ops) = [["a"], ["b"]] ∧
    ChainFrom (rawUStep (buildGraph c5ops)) "a" "b" ["a", "x", "b"] ∧
    ¬ ∃ c ∈ find_clusters (buildGraph c5ops), "a" ∈ c ∧ "b" ∈ c := by
  have h1 : find_clusters (buildGraph c5ops) = [["a"], ["b"]] := by
    show clustersLoop (buildGraph c5ops) [⟨"a", c5pa⟩, ⟨"b", c5pb⟩] [] [] =
      [["a"], ["b"]]
    rw [clustersLoop, if_neg (by decide), c5_dfs_a]
    show clustersLoop (buildGraph c5ops) [⟨"b", c5pb⟩] ["a"] [["a"]] =
      [["a"], ["b"]]
    rw [clustersLoop, if_neg (by decide), c5_dfs_b]
    show clustersLoop (buildGraph c5ops) [] ["a", "b"] [["a"], ["b"]] =
      [["a"], ["b"]]
    rw [clustersLoop]
  refine ⟨h1, ⟨?_, rfl, rfl⟩, ?_⟩
  · exact List.chain'_cons.2 ⟨by decide, List.chain'_cons.2
      ⟨by decide, List.chain'_singleton _⟩⟩
  · rw [h1]
    decide

/-- Operation sequence for the C5 witness: two stored nodes joined by a
stored edge. -/
def c5wops : List (GraphOp String) :=
  [.addEntity "a" .organization, .addEntity "b" .repository,
    .addRelationship "a" "b" .owns]

/-- C5 (witness): the amended theorem's connectivity direction applied to a
concrete two-node graph, discharging the key-membership hypotheses and the
walk by evaluation: the two joined nodes share a cluster. -/
theorem c5_witness :
    ∃ c ∈ find_clusters (buildGraph c5wops), "a" ∈ c ∧ "b" ∈ c := by
  have h := (c5_find_clusters c5wops).2.2.2 "a" "b" (by decide) (by decide)
  refine h.2 ⟨["a", "b"], ?_, rfl, rfl⟩
  exact List.chain'_cons.2 ⟨by decide, List.chain'_singleton _⟩

/-- Operation sequence for the C6 witness: one node, no edges. -/
def c6wops : List (GraphOp String) :=
  [GraphOp.addEntity "a" EntityType.organization]

/-- C6 (witness): the amended theorem applied to the one-node, no-edge
graph, discharging the lookup hypothesis by evaluation; the node's
centrality is 0. -/
theorem c6_witness :
    (0 : ℚ) = (((buildGraph c6wops).edges.countP (fun e => e.source_id = "a") +
          (buildGraph c6wops).edges.countP (fun e => e.target_id = "a") : ℕ) : ℚ) /
        ((max ((buildGraph c6wops).nodes.length - 1) 1 : ℕ) : ℚ) ∧
    (0 : ℚ) ≤ 0 ∧
    ((buildGraph c6wops).nodes.length = 1 → (buildGraph c6wops).edges = [] →
      (0 : ℚ) = 0) :=
  c6_compute_centrality c6wops "a" 0 (by
    rw [compute_centrality, dictGet_map_keyed _ (centralityOf (buildGraph c6wops))]
    rw [show dictGet (buildGraph c6wops).nodes "a" =
      some ⟨"a", EntityType.organization⟩ from by decide]
    simp only [Option.map_some', Option.some.injEq]
    rw [centralityOf]
    rw [show (dictGetD (buildGraph c6wops).edgesBySource "a").length = 0 from by decide]
    rw [show (dictGetD (buildGraph c6wops).edgesByTarget "a").length = 0 from by decide]
    norm_num)

/-! ### Remote payload access (`scanner.py` idioms)

`d.get(k, default)` returns the stored value even when it is `None`; a
subsequent attribute access (`.get`, `.replace`, iteration) on a non-dict /
non-list / non-string value raises, which the embedding surfaces as
`Except.error`.  ISO-8601 parsing inside `_parse_datetime` is abstracted to
the identity on its well-typed input: no claim consults a parsed date, and
the guard structure (falsy input gives `None`, non-string input raises) is
kept exactly. -/

/-- A Python dict holding remote payload data. -/
abbrev JObj := List (String × JVal)

/-- `d.get(k)`: `none` when the key is absent. -/
def jget (d : JObj) (k : String) : Option JVal :=
  dictGet d k

/-- `d.get(k, default)`. -/
def pyGet (d : JObj) (k : String) (dflt : JVal) : JVal :=
  (jget d k).getD dflt

/-- Python `v or w`. -/
def pyOr (v w : JVal) : JVal :=
  if jTruthy v then v else w

/-- `d.get(k, \x7b\x7d)` followed by dict access on the result: absent keys
give the empty dict, stored non-dict values (`None` included) raise. -/
def pyGetObj (d : JObj) (k : String) : Except String JObj :=
  match jget d k with
  | none => .ok []
  | some (.obj o) => .ok o
  | some _ => .error "AttributeError: get on a non-dict value"

/-- `d.get(k, [])` followed by iteration: absent keys give the empty list,
stored non-list values raise. -/
def pyGetList (d : JObj) (k : String) : Except String (List JVal) :=
  match jget d k with
  | none => .ok []
  | some (.arr xs) => .ok xs
  | some _ => .error "TypeError: iteration over a non-list value"

/-- Dict access on an arbitrary payload value (list elements). -/
def pyAsObj (v : JVal) : Except String JObj :=
  match v with
  | .obj o => .ok o
  | _ => .error "AttributeError: get on a non-dict value"

/-- `OrganizationMapper._parse_datetime`: falsy input gives `None`; a truthy
non-string raises (`.replace` on it); the ISO text itself is kept opaque. -/
def pyParseDatetime (v : Option JVal) : Except String (Option JVal) :=
  match v with
  | none => .ok none
  | some w =>
      if jTruthy w then
        match w with
        | .str s => .ok (some (.str s))
        | _ => .error "AttributeError: replace on a non-string value"
      else .ok none

/-- Did an `Except` computation succeed? -/
def exceptOk {ε β : Type} : Except ε β → Bool
  | .ok _ => true
  | .error _ => false

/-! ### Entity construction (`scanner.py` constructor calls over
`entities.py` dataclasses)

Fields hold the dynamic payload values exactly as the Python constructors
receive them; every `.get` pattern of the source is mirrored, including the
ones that raise on a present-but-null nested object. -/

/-- `Organization` as `_scan_organization` constructs it. -/
structure Organization where
  id : JVal
  node_id : JVal
  login : JVal
  name : JVal
  description : JVal
  url : JVal
  avatar_url : JVal
  website_url : JVal
  email : JVal
  is_verified : JVal
  repo_count : JVal
  team_count : JVal
  member_count : JVal
  created_at : Option JVal
  deriving DecidableEq

/-- `scanner.py` lines 182–197. -/
def buildOrganization (d : JObj) : Except String Organization := do
  let repoConn ← pyGetObj d "repositories"
  let teamConn ← pyGetObj d "teams"
  let memberConn ← pyGetObj d "membersWithRole"
  let createdAt ← pyParseDatetime (jget d "createdAt")
  .ok { id := pyGet d "id" (.str "")
        node_id := pyGet d "id" (.str "")
        login := pyGet d "login" (.str "")
        name := pyGet d "name" (.str "")
        description := pyGet d "description" (.str "")
        url := pyGet d "url" (.str "")
        avatar_url := pyGet d "avatarUrl" (.str "")
        website_url := pyGet d "websiteUrl" (.str "")
        email := pyGet d "email" (.str "")
        is_verified := pyGet d "isVerified" (.bool false)
        repo_count := pyGet repoConn "totalCount" (.num 0)
        team_count := pyGet teamConn "totalCount" (.num 0)
        member_count := pyGet memberConn "totalCount" (.num 0)
        created_at := createdAt }

/-- `Repository` as `_scan_repositories` constructs it. -/
structure Repository where
  id : JVal
  node_id : JVal
  name : JVal
  full_name : JVal
  description : JVal
  url : JVal
  homepage_url : JVal
  is_private : JVal
  is_archived : JVal
  is_fork : JVal
  primary_language : JVal
  default_branch : JVal
  disk_usage : JVal
  stargazer_count : JVal
  fork_count : JVal
  languages : List JVal
  topics : List JVal
  created_at : Option JVal
  updated_at : Option JVal
  pushed_at : Option JVal
  deriving DecidableEq

/-- `scanner.py` lines 216–237: note that the guarded patterns for
`primaryLanguage` and `defaultBranchRef` tolerate null, while the
`languages`/`repositoryTopics` chains raise on a present-but-null value. -/
def buildRepository (d : JObj) : Except String Repository := do
  let primaryLanguage ←
    if jTruthy (pyGet d "primaryLanguage" .null) then do
      let o ← pyGetObj d "primaryLanguage"
      pure (pyGet o "name" (.str ""))
    else pure (JVal.str "")
  let defaultBranch ←
    if jTruthy (pyGet d "defaultBranchRef" .null) then do
      let o ← pyGetObj d "defaultBranchRef"
      pure (pyGet o "name" (.str "main"))
    else pure (JVal.str "main")
  let langConn ← pyGetObj d "languages"
  let langNodes ← pyGetList langConn "nodes"
  let languages ← langNodes.mapM (fun lang => do
    let lo ← pyAsObj lang
    pure (pyGet lo "name" (.str "")))
  let topicConn ← pyGetObj d "repositoryTopics"
  let topicNodes ← pyGetList topicConn "nodes"
  let topics ← topicNodes.mapM (fun tp => do
    let tobj ← pyAsObj tp
    let inner ← pyGetObj tobj "topic"
    pure (pyGet inner "name" (.str "")))
  let createdAt ← pyParseDatetime (jget d "createdAt")
  let updatedAt ← pyParseDatetime (jget d "updatedAt")
  let pushedAt ← pyParseDatetime (jget d "pushedAt")
  .ok { id := pyGet d "id" (.str "")
        node_id := pyGet d "id" (.str "")
        name := pyGet d "name" (.str "")
        full_name := pyGet d "nameWithOwner" (.str "")
        description := pyOr (pyGet d "description" (.str "")) (.str "")
        url := pyGet d "url" (.str "")
        homepage_url := pyOr (pyGet d "homepageUrl" (.str "")) (.str "")
        is_private := pyGet d "isPrivate" (.bool false)
        is_archived := pyGet d "isArchived" (.bool false)
        is_fork := pyGet d "isFork" (.bool false)
        primary_language := primaryLanguage
        default_branch := defaultBranch
        disk_usage := pyGet d "diskUsage" (.num 0)
        stargazer_count := pyGet d "stargazerCount" (.num 0)
        fork_count := pyGet d "forkCount" (.num 0)
        languages := languages
        topics := topics
        created_at := createdAt
        updated_at := updatedAt
        pushed_at := pushedAt }

/-- `Team` as `_scan_teams` constructs it. -/
structure Team where
  id : JVal
  node_id : JVal
  name : JVal
  slug : JVal
  description : JVal
  privacy : JVal
  member_count : JVal
  repo_count : JVal
  deriving DecidableEq

/-- `scanner.py` lines 254–263. -/
def buildTeam (d : JObj) : Except String Team := do
  let memberConn ← pyGetObj d "membersCount"
  let repoConn ← pyGetObj d "reposCount"
  .ok { id := pyGet d "id" (.str "")
        node_id := pyGet d "id" (.str "")
        name := pyGet d "name" (.str "")
        slug := pyGet d "slug" (.str "")
        description := pyOr (pyGet d "description" (.str "")) (.str "")
        privacy := pyGet d "privacy" (.str "visible")
        member_count := pyGet memberConn "totalCount" (.num 0)
        repo_count := pyGet repoConn "totalCount" (.num 0) }

/-- `Member` as `_scan_members` constructs it. -/
structure Member where
  id : JVal
  node_id : JVal
  login : JVal
  name : JVal
  email : JVal
  avatar_url : JVal
  bio : JVal
  company : JVal
  location : JVal
  deriving DecidableEq

/-- `scanner.py` lines 280–290 (plain gets only — cannot raise). -/
def buildMember (d : JObj) : Member :=
  { id := pyGet d "id" (.str "")
    node_id := pyGet d "id" (.str "")
    login := pyGet d "login" (.str "")
    name := pyOr (pyGet d "name" (.str "")) (.str "")
    email := pyOr (pyGet d "email" (.str "")) (.str "")
    avatar_url := pyGet d "avatarUrl" (.str "")
    bio := pyOr (pyGet d "bio" (.str "")) (.str "")
    company := pyOr (pyGet d "company" (.str "")) (.str "")
    location := pyOr (pyGet d "location" (.str "")) (.str "") }

/-- `IssueState` (`entities.py`). -/
inductive IssueState where
  | OPEN | CLOSED
  deriving DecidableEq

/-- Python `IssueState[name]`: indexing the enum by name raises `KeyError`
for any other value (a non-string index raises too). -/
def issueStateOf : JVal → Except String IssueState
  | .str "OPEN" => .ok .OPEN
  | .str "CLOSED" => .ok .CLOSED
  | _ => .error "KeyError: not an IssueState name"

/-- `PRState` (`entities.py`). -/
inductive PRState where
  | OPEN | CLOSED | MERGED
  deriving DecidableEq

def prStateOf : JVal → Except String PRState
  | .str "OPEN" => .ok .OPEN
  | .str "CLOSED" => .ok .CLOSED
  | .str "MERGED" => .ok .MERGED
  | _ => .error "KeyError: not a PRState name"

/-- `ReviewDecision` (`entities.py`). -/
inductive ReviewDecision where
  | APPROVED | CHANGES_REQUESTED | REVIEW_REQUIRED | NONE
  deriving DecidableEq

def reviewDecisionOf : JVal → Except String ReviewDecision
  | .str "APPROVED" => .ok .APPROVED
  | .str "CHANGES_REQUESTED" => .ok .CHANGES_REQUESTED
  | .str "REVIEW_REQUIRED" => .ok .REVIEW_REQUIRED
  | .str "NONE" => .ok .NONE
  | _ => .error "KeyError: not a ReviewDecision name"

/-- `Issue` as `_scan_issues` constructs it. -/
structure Issue where
  id : JVal
  node_id : JVal
  number : JVal
  title : JVal
  state : IssueState
  author_login : JVal
  labels : List JVal
  assignees : List JVal
  created_at : Option JVal
  updated_at : Option JVal
  deriving DecidableEq

/-- `scanner.py` lines 312–323. -/
def buildIssue (d : JObj) : Except String Issue := do
  let state ← issueStateOf (pyGet d "state" (.str "OPEN"))
  let authorLogin ←
    if jTruthy (pyGet d "author" .null) then do
      let o ← pyGetObj d "author"
      pure (pyGet o "login" (.str ""))
    else pure (JVal.str "")
  let labelConn ← pyGetObj d "labels"
  let labelNodes ← pyGetList labelConn "nodes"
  let labels ← labelNodes.mapM (fun lb => do
    let lo ← pyAsObj lb
    pure (pyGet lo "name" (.str "")))
  let assigneeConn ← pyGetObj d "assignees"
  let assigneeNodes ← pyGetList assigneeConn "nodes"
  let assignees ← assigneeNodes.mapM (fun asg => do
    let ao ← pyAsObj asg
    pure (pyGet ao "login" (.str "")))
  let createdAt ← pyParseDatetime (jget d "createdAt")
  let updatedAt ← pyParseDatetime (jget d "updatedAt")
  .ok { id := pyGet d "id" (.str "")
        node_id := pyGet d "id" (.str "")
        number := pyGet d "number" (.num 0)
        title := pyGet d "title" (.str "")
        state := state
        author_login := authorLogin
        labels := labels
        assignees := assignees
        created_at := createdAt
        updated_at := updatedAt }

/-- `PullRequest` as `_scan_pull_requests` constructs it. -/
structure PullRequest where
  id : JVal
  node_id : JVal
  number : JVal
  title : JVal
  state : PRState
  author_login : JVal
  head_ref : JVal
  base_ref : JVal
  additions : JVal
  deletions : JVal
  changed_files : JVal
  review_decision : ReviewDecision
  created_at : Option JVal
  updated_at : Option JVal
  merged_at : Option JVal
  deriving DecidableEq

/-- `scanner.py` lines 345–361. -/
def buildPullRequest (d : JObj) : Except String PullRequest := do
  let state ← prStateOf (pyGet d "state" (.str "OPEN"))
  let authorLogin ←
    if jTruthy (pyGet d "author" .null) then do
      let o ← pyGetObj d "author"
      pure (pyGet o "login" (.str ""))
    else pure (JVal.str "")
  let reviewDecision ←
    if jTruthy (pyGet d "reviewDecision" .null) then
      reviewDecisionOf (pyGet d "reviewDecision" (.str "NONE"))
    else pure ReviewDecision.NONE
  let createdAt ← pyParseDatetime (jget d "createdAt")
  let updatedAt ← pyParseDatetime (jget d "updatedAt")
  let mergedAt ← pyParseDatetime (jget d "mergedAt")
  .ok { id := pyGet d "id" (.str "")
        node_id := pyGet d "id" (.str "")
        number := pyGet d "number" (.num 0)
        title := pyGet d "title" (.str "")
        state := state
        author_login := authorLogin
        head_ref := pyGet d "headRefName" (.str "")
        base_ref := pyGet d "baseRefName" (.str "")
        additions := pyGet d "additions" (.num 0)
        deletions := pyGet d "deletions" (.num 0)
        changed_files := pyGet d "changedFiles" (.num 0)
        review_decision := reviewDecision
        created_at := createdAt
        updated_at := updatedAt
        merged_at := mergedAt }

/-! ### The transport stub and `GitHubGraphQLClient.paginate`

The transport collaborator is a stub (spec section 6): one prepared
`QueryResult` per `execute` call.  A paginated query's successive pages are
given as a list consumed in order — the client threads an opaque cursor
whose only observable effect is selecting the next page; a stub exhausted
while the loop still wants a page behaves as a failing `execute`, and the
loop's failure branch then breaks exactly as in the source.  The
`page_size` variable is part of the request, not of the stubbed response,
and does not appear. -/

/-- `QueryResult` of `graphql/client.py` (the fields the scanner reads). -/
structure QueryResult where
  data : JObj
  errors : List JVal

/-- `QueryResult.success`. -/
def QueryResult.success (r : QueryResult) : Bool :=
  r.errors.isEmpty

/-- Prepared responses for the fixed set of queries one scan issues. -/
structure ScanStub where
  orgExec : QueryResult
  repoPages : List QueryResult
  teamPages : List QueryResult
  memberPages : List QueryResult
  issueExec : JVal → QueryResult
  prExec : JVal → QueryResult

/-- `for key in path: data = data.get(key, \x7b\x7d)`. -/
def navigatePath (d : JObj) : List String → Except String JObj
  | [] => .ok d
  | k :: rest => do navigatePath (← pyGetObj d k) rest

/-- The `while True:` loop of `GitHubGraphQLClient.paginate`: stop silently
on a failed page (returning what was accumulated), extend the accumulator
with the page's nodes, stop when `hasNextPage` is falsy, then stop when the
page counter reaches a truthy `max_pages`. -/
def paginateGo (path : List String) (maxPages : Option Nat) :
    List QueryResult → Nat → List JVal → Except String (List JVal)
  | [], _, acc => .ok acc
  | r :: rest, page, acc =>
      if !r.success then .ok acc
      else do
        let d ← navigatePath r.data path
        let nodes ← pyGetList d "nodes"
        let acc := acc ++ nodes
        let pageInfo ← pyGetObj d "pageInfo"
        if !jTruthy (pyGet pageInfo "hasNextPage" (.bool false)) then .ok acc
        else
          let page := page + 1
          if (match maxPages with
              | some m => decide (m ≠ 0) && decide (page ≥ m)
              | none => false) then .ok acc
          else paginateGo path maxPages rest page acc

/-- `GitHubGraphQLClient.paginate` over stubbed pages. -/
def paginate (pages : List QueryResult) (path : List String)
    (maxPages : Option Nat) : Except String (List JVal) :=
  paginateGo path maxPages pages 0 []

/-! ### The scan (`OrganizationMapper.scan`)

One scan on a freshly constructed mapper: the graph starts empty, stage
results accumulate into the returned `ScanResult`, and the stages run in
the fixed order organization → repositories → teams → members → issues/PRs
per repository (first 10).  Wall-clock `scan_time` is not modelled.  The
returned trace records which fetch stages were issued, in order — the
pure-model observation of "performs no further sub-fetches". -/

/-- `Relationship` as the scanner creates it (metadata never set). -/
structure RelationshipM where
  source_id : JVal
  target_id : JVal
  relation_type : RelationType

/-- `ScanResult` of `scanner.py` (without the wall-clock `scan_time`). -/
structure ScanResultM where
  organization : Option Organization := none
  repositories : List Repository := []
  teams : List Team := []
  members : List Member := []
  issues : List Issue := []
  pull_requests : List PullRequest := []
  projects : List JVal := []
  relationships : List RelationshipM := []
  errors : List String := []

/-- One fetch stage issued against the transport. -/
inductive FetchEv where
  | org
  | repos
  | teams
  | members
  | issues (repoName : JVal)
  | prs (repoName : JVal)
  deriving DecidableEq

/-- `OrganizationMapper._scan_organization`: `None` when the call failed or
the payload's `organization` value is falsy; otherwise the built entity. -/
def scanOrganizationM (stub : ScanStub) : Except String (Option Organization) :=
  let r := stub.orgExec
  if !r.success || !jTruthy ((jget r.data "organization").getD .null) then .ok none
  else do
    let od ← pyAsObj ((jget r.data "organization").getD .null)
    let org ← buildOrganization od
    .ok (some org)

/-- Construction of one repository entity from one paginated node (the
body of the `for repo_data in ...` loop). -/
def parseRepoNode (v : JVal) : Except String Repository := do
  buildRepository (← pyAsObj v)

/-- `OrganizationMapper._scan_repositories`: paginate with
`max_repos // 100 + 1` pages when `max_repos` is truthy, then slice
`[:max_repos]` when truthy, then construct the entities. -/
def scanRepositoriesM (stub : ScanStub) (maxRepos : Option Nat) :
    Except String (List Repository) := do
  let maxPages : Option Nat :=
    match maxRepos with
    | some m => if m = 0 then none else some (m / 100 + 1)
    | none => none
  let reposData ← paginate stub.repoPages ["organization", "repositories"] maxPages
  let sliced :=
    match maxRepos with
    | some m => if m = 0 then reposData else reposData.take m
    | none => reposData
  sliced.mapM parseRepoNode

/-- `OrganizationMapper._scan_teams`. -/
def scanTeamsM (stub : ScanStub) : Except String (List Team) := do
  let teamsData ← paginate stub.teamPages ["organization", "teams"] none
  teamsData.mapM (fun td => do buildTeam (← pyAsObj td))

/-- `OrganizationMapper._scan_members`. -/
def scanMembersM (stub : ScanStub) : Except String (List Member) := do
  let membersData ← paginate stub.memberPages ["organization", "membersWithRole"] none
  membersData.mapM (fun md => do
    let mo ← pyAsObj md
    pure (buildMember mo))

/-- `OrganizationMapper._scan_issues`: empty on a failed call, else the
nodes under `repository.issues`. -/
def scanIssuesM (stub : ScanStub) (repoName : JVal) : Except String (List Issue) :=
  let r := stub.issueExec repoName
  if !r.success then .ok []
  else do
    let repoObj ← pyGetObj r.data "repository"
    let conn ← pyGetObj repoObj "issues"
    let nodes ← pyGetList conn "nodes"
    nodes.mapM (fun nd => do buildIssue (← pyAsObj nd))

/-- `OrganizationMapper._scan_pull_requests`. -/
def scanPullRequestsM (stub : ScanStub) (repoName : JVal) :
    Except String (List PullRequest) :=
  let r := stub.prExec repoName
  if !r.success then .ok []
  else do
    let repoObj ← pyGetObj r.data "repository"
    let conn ← pyGetObj repoObj "pullRequests"
    let nodes ← pyGetList conn "nodes"
    nodes.mapM (fun nd => do buildPullRequest (← pyAsObj nd))

/-- The `for repo in repos[:10]:` loop of `scan`: per repository, scan
issues (when enabled) and pull requests (when enabled), extending the
result lists, the graph, and the fetch trace. -/
def scanIssuesPrsLoop (stub : ScanStub) (includeIssues includePRs : Bool) :
    List Repository → List Issue → List PullRequest → OrgGraph JVal →
    List FetchEv →
    Except String (List Issue × List PullRequest × OrgGraph JVal × List FetchEv)
  | [], issues, prs, g, trace => .ok (issues, prs, g, trace)
  | repo :: rest, issues, prs, g, trace => do
      let st1 ←
        if includeIssues then do
          let newIssues ← scanIssuesM stub repo.name
          .ok (issues ++ newIssues,
            newIssues.foldl (fun g i => add_entity g i.id .issue) g,
            trace ++ [FetchEv.issues repo.name])
        else .ok (issues, g, trace)
      let st2 ←
        if includePRs then do
          let newPrs ← scanPullRequestsM stub repo.name
          .ok (prs ++ newPrs,
            newPrs.foldl (fun g p => add_entity g p.id .pull_request) st1.2.1,
            st1.2.2 ++ [FetchEv.prs repo.name])
        else .ok (prs, st1.2.1, st1.2.2)
      scanIssuesPrsLoop stub includeIssues includePRs rest st1.1 st2.1 st2.2.1 st2.2.2

/-- `OrganizationMapper.scan` over the transport stub, on a fresh mapper.
Returns the `ScanResult`, the mutated graph, and the fetch-stage trace;
a raised exception is `Except.error`. -/
def scanModel (stub : ScanStub) (orgLogin : String)
    (includeIssues includePRs includeProjects : Bool) (maxRepos : Option Nat) :
    Except String (ScanResultM × OrgGraph JVal × List FetchEv) := do
  let trace : List FetchEv := [.org]
  let org? ← scanOrganizationM stub
  match org? with
  | none =>
      .ok ({ errors := ["Failed to scan organization: " ++ orgLogin] },
        emptyGraph JVal, trace)
  | some org => do
      let g := add_entity (emptyGraph JVal) org.id .organization
      let trace := trace ++ [.repos]
      let repos ← scanRepositoriesM stub maxRepos
      let g := repos.foldl (fun g r => add_entity g r.id .repository) g
      let relsRepos := repos.map (fun r => RelationshipM.mk org.id r.id .owns)
      let trace := trace ++ [.teams]
      let teams ← scanTeamsM stub
      let g := teams.foldl (fun g t => add_entity g t.id .team) g
      let trace := trace ++ [.members]
      let members ← scanMembersM stub
      let g := members.foldl (fun g m => add_entity g m.id .member) g
      let relsMembers := members.map (fun m => RelationshipM.mk m.id org.id .member_of)
      let rels := relsRepos ++ relsMembers
      let st ←
        if includeIssues || includePRs then
          scanIssuesPrsLoop stub includeIssues includePRs (repos.take 10) [] [] g trace
        else .ok ([], [], g, trace)
      let g := rels.foldl (fun g r =>
        add_relationship g r.source_id r.target_id r.relation_type) st.2.2.1
      .ok ({ organization := some org
             repositories := repos
             teams := teams
             members := members
             issues := st.1
             pull_requests := st.2.1
             relationships := rels
             errors := [] }, g, st.2.2.2)

/-! ### Claim C1 -/

/-- C1: whenever the organization query fails or carries no (truthy)
organization data, `scan` returns — raising nothing — a `ScanResult` with a
null organization, every collection empty, a non-empty error list, and the
fetch trace shows no sub-fetch after the organization lookup. -/
theorem c1_scan_fatal_gate (stub : ScanStub) (orgLogin : String)
    (ii ip ipr : Bool) (mr : Option Nat)
    (h : stub.orgExec.success = false ∨
      jTruthy ((jget stub.orgExec.data "organization").getD .null) = false) :
    ∃ res : ScanResultM × OrgGraph JVal × List FetchEv,
      scanModel stub orgLogin ii ip ipr mr = .ok res ∧
      res.1.organization = none ∧
      res.1.repositories = [] ∧ res.1.teams = [] ∧ res.1.members = [] ∧
      res.1.issues = [] ∧ res.1.pull_requests = [] ∧
      res.1.relationships = [] ∧
      res.1.errors ≠ [] ∧
      res.2.2 = [FetchEv.org] := by
  have hcond : (!stub.orgExec.success ||
      !jTruthy ((jget stub.orgExec.data "organization").getD .null)) = true := by
    rcases h with h | h <;> simp [h]
  have horg : scanOrganizationM stub = .ok none := by
    rw [scanOrganizationM, if_pos hcond]
  refine ⟨({ errors := ["Failed to scan organization: " ++ orgLogin] },
    emptyGraph JVal, [FetchEv.org]), ?_, rfl, rfl, rfl, rfl, rfl, rfl, rfl,
    by simp, rfl⟩
  rw [scanModel, horg]
  rfl

/-- C1 (witness): the theorem applied to a concrete stub whose organization
query returns an error. -/
theorem c1_witness :
    ∃ res : ScanResultM × OrgGraph JVal × List FetchEv,
      scanModel ⟨⟨[], [.str "boom"]⟩, [], [], [], fun _ => ⟨[], []⟩,
          fun _ => ⟨[], []⟩⟩ "acme" true true false none = .ok res ∧
      res.1.organization = none ∧
      res.1.repositories = [] ∧ res.1.teams = [] ∧ res.1.members = [] ∧
      res.1.issues = [] ∧ res.1.pull_requests = [] ∧
      res.1.relationships = [] ∧
      res.1.errors ≠ [] ∧
      res.2.2 = [FetchEv.org] :=
  c1_scan_fatal_gate _ "acme" true true false none (Or.inl rfl)

/-! ### Claim C2 -/

/-- C2: when the repositories query fails at its first page while the
organization, teams and members queries succeed, the scan neither raises
nor aborts: repositories come back empty, teams and members are populated
with the stub's data, and the fetch trace shows the teams and members
stages attempted after the failed repositories stage. -/
theorem c2_scan_degraded (stub : ScanStub) (orgLogin : String)
    (ii ip ipr : Bool) (mr : Option Nat)
    (org : Organization) (teams : List Team) (members : List Member)
    (horg : scanOrganizationM stub = .ok (some org))
    (hrepo : ∃ r rest, stub.repoPages = r :: rest ∧ r.success = false)
    (hteams : scanTeamsM stub = .ok teams)
    (hmembers : scanMembersM stub = .ok members) :
    ∃ res : ScanResultM × OrgGraph JVal × List FetchEv,
      scanModel stub orgLogin ii ip ipr mr = .ok res ∧
      res.1.organization = some org ∧
      res.1.repositories = [] ∧
      res.1.teams = teams ∧
      res.1.members = members ∧
      res.1.errors = [] ∧
      res.2.2 = [FetchEv.org, FetchEv.repos, FetchEv.teams, FetchEv.members] := by
  obtain ⟨r, rest, hpages, hfail⟩ := hrepo
  have hpag : ∀ mp, paginate stub.repoPages ["organization", "repositories"]
      mp = .ok [] := by
    intro mp
    rw [hpages, paginate, paginateGo]
    simp [hfail]
  have hrepos : scanRepositoriesM stub mr = .ok [] := by
    cases mr with
    | none =>
        show (paginate stub.repoPages ["organization", "repositories"] none >>=
          fun rd => rd.mapM parseRepoNode) = .ok []
        rw [hpag]
        rfl
    | some m =>
        show (paginate stub.repoPages ["organization", "repositories"]
            (if m = 0 then none else some (m / 100 + 1)) >>=
          fun rd => (if m = 0 then rd else rd.take m).mapM parseRepoNode) =
            .ok []
        rw [hpag]
        show (if m = 0 then ([] : List JVal) else List.take m []).mapM
          parseRepoNode = .ok []
        by_cases hm : m = 0
        · rw [if_pos hm]
          rfl
        · rw [if_neg hm, List.take_nil]
          rfl
  cases hip : (ii || ip) <;>
    exact ⟨_, by rw [scanModel, horg, hrepos, hteams, hmembers, hip]; rfl,
      rfl, rfl, rfl, rfl, rfl, rfl⟩

/-- Transport stub for the C2 witness: the organization succeeds, the first
repositories page fails, one team and one member come back. -/
def c2stub : ScanStub :=
  { orgExec := ⟨[("organization", JVal.obj [("id", .str "orgid"),
      ("login", .str "acme")])], []⟩
    repoPages := [⟨[], [.str "repo boom"]⟩]
    teamPages := [⟨[("organization", .obj [("teams", .obj [("nodes",
      .arr [.obj [("id", .str "t1"), ("name", .str "Core")]]),
      ("pageInfo", .obj [("hasNextPage", .bool false)])])])], []⟩]
    memberPages := [⟨[("organization", .obj [("membersWithRole", .obj [("nodes",
      .arr [.obj [("id", .str "m1"), ("login", .str "alice")]]),
      ("pageInfo", .obj [("hasNextPage", .bool false)])])])], []⟩]
    issueExec := fun _ => ⟨[], [.str "unused"]⟩
    prExec := fun _ => ⟨[], [.str "unused"]⟩ }

/-- C2 (witness): the theorem applied to `c2stub`, discharging every
hypothesis by evaluation; the returned teams and members are nonempty. -/
theorem c2_witness :
    ∃ res : ScanResultM × OrgGraph JVal × List FetchEv,
      scanModel c2stub "acme" true true false (some 50) = .ok res ∧
      res.1.repositories = [] ∧ res.1.teams ≠ [] ∧ res.1.members ≠ [] ∧
      res.2.2 = [FetchEv.org, FetchEv.repos, FetchEv.teams, FetchEv.members] := by
  obtain ⟨res, h1, _, h3, h4, h5, _, h7⟩ :=
    c2_scan_degraded c2stub "acme" true true false (some 50) _ _ _ rfl
      ⟨_, _, rfl, rfl⟩ rfl rfl
  refine ⟨res, h1, h3, ?_, ?_, h7⟩
  · rw [h4]
    decide
  · rw [h5]
    decide

/-! ### Claim C3 -/

/-- One successful repositories page carrying `n` empty repository nodes. -/
def repoPage (n : Nat) (hasNext : Bool) : QueryResult :=
  ⟨[("organization", .obj [("repositories", .obj [
      ("nodes", .arr (List.replicate n (JVal.obj []))),
      ("pageInfo", .obj [("hasNextPage", .bool hasNext)])])])], []⟩

/-- A successful connection page for field `fld` with no nodes. -/
def emptyConnPage (fld : String) : QueryResult :=
  ⟨[("organization", .obj [(fld, .obj [
      ("nodes", .arr []),
      ("pageInfo", .obj [("hasNextPage", .bool false)])])])], []⟩

/-- Transport stub for C3: 250 repositories across three pages
(100 + 100 + 50), organization fine, no teams and no members. -/
def c3Stub : ScanStub :=
  { orgExec := ⟨[("organization", JVal.obj [("id", .str "orgid"),
      ("login", .str "acme")])], []⟩
    repoPages := [repoPage 100 true, repoPage 100 true, repoPage 50 false]
    teamPages := [emptyConnPage "teams"]
    memberPages := [emptyConnPage "membersWithRole"]
    issueExec := fun _ => ⟨[], [.str "unused"]⟩
    prExec := fun _ => ⟨[], [.str "unused"]⟩ }

/-- `Except` bind inversion: a successful bind splits into two successes. -/
theorem except_bind_ok {α β : Type} {x : Except String α}
    {f : α → Except String β} {b : β} (h : (x >>= f) = .ok b) :
    ∃ a, x = .ok a ∧ f a = .ok b := by
  cases x with
  | error e =>
      have h2 : (Except.error e : Except String β) = Except.ok b := h
      exact Except.noConfusion h2
  | ok a => exact ⟨a, rfl, h⟩

/-- The `List.mapM` worker over `Except` preserves length. -/
theorem mapM_loop_length {α β : Type} (f : α → Except String β) :
    ∀ (l : List α) (acc r : List β),
      List.mapM.loop f l acc = .ok r → r.length = acc.length + l.length
  | [], acc, r, h => by
      have h2 : (Except.ok acc.reverse : Except String (List β)) = .ok r := h
      cases h2
      simp
  | a :: l, acc, r, h => by
      have h2 : (f a >>= fun b => List.mapM.loop f l (b :: acc)) = .ok r := h
      obtain ⟨b, _, hrest⟩ := except_bind_ok h2
      have hlen := mapM_loop_length f l (b :: acc) r hrest
      simp only [List.length_cons] at hlen ⊢
      omega

/-- `List.mapM` over `Except` preserves length. -/
theorem length_mapM {α β : Type} (f : α → Except String β) (l : List α)
    (r : List β) (h : l.mapM f = .ok r) : r.length = l.length := by
  have h2 : List.mapM.loop f l [] = .ok r := h
  have hlen := mapM_loop_length f l [] r h2
  simpa using hlen

/-- A truthy (nonzero) `max_repos` is a hard cap on the repositories
`_scan_repositories` returns, by the `[:max_repos]` slice. -/
theorem scanRepositoriesM_cap (stub : ScanStub) (m : Nat) (hm : m ≠ 0)
    (repos : List Repository)
    (h : scanRepositoriesM stub (some m) = .ok repos) : repos.length ≤ m := by
  have h' : (paginate stub.repoPages ["organization", "repositories"]
      (if m = 0 then none else some (m / 100 + 1)) >>=
    fun rd => (if m = 0 then rd else rd.take m).mapM parseRepoNode) =
      .ok repos := h
  obtain ⟨rd, _, hmap⟩ := except_bind_ok h'
  rw [if_neg hm] at hmap
  have hl := length_mapM parseRepoNode (rd.take m) repos hmap
  rw [hl, List.length_take]
  exact min_le_left _ _

set_option maxRecDepth 100000

/-- C3: on the transport stub yielding 250 repositories across three pages
(100 + 100 + 50), a scan with `max_repos = 120` returns exactly 120
repository entities; and in general a nonzero `max_repos` is a hard cap on
the number of repositories any scan of any stub returns. -/
theorem c3_max_repos_cap :
    c3Stub.repoPages.length = 3 ∧
    (∃ allNodes, paginate c3Stub.repoPages ["organization", "repositories"]
        none = .ok allNodes ∧ allNodes.length = 250) ∧
    (∃ res, scanModel c3Stub "acme" false false false (some 120) = .ok res ∧
       res.1.repositories.length = 120) ∧
    (∀ stub m repos, m ≠ 0 →
       scanRepositoriesM stub (some m) = .ok repos → repos.length ≤ m) := by
  refine ⟨rfl, ⟨_, rfl, ?_⟩, ⟨_, rfl, ?_⟩, ?_⟩
  · decide
  · decide
  · intro stub m repos hm h
    exact scanRepositoriesM_cap stub m hm repos h

/-! ### Claim C9 -/

/-- C9: `max_repos = 0` is falsy in both guards of `_scan_repositories`
(`max_repos // 100 + 1 if max_repos else None` and
`repos_data[:max_repos] if max_repos else repos_data`), so a scan called
with `max_repos = 0` is the very same function as one with no limit, and on
the 250-repository stub it returns all 250 repositories, not zero. -/
theorem c9_max_repos_zero :
    (∀ stub login ii ip ipr,
       scanModel stub login ii ip ipr (some 0) =
       scanModel stub login ii ip ipr none) ∧
    (∃ res, scanModel c3Stub "acme" false false false (some 0) = .ok res ∧
       res.1.repositories.length = 250) := by
  refine ⟨?_, ⟨_, rfl, ?_⟩⟩
  · intro stub login ii ip ipr
    rfl
  · decide

/-! ### Claim C8 -/

/-- C8: the entity-construction claim fails on the code: a repository
payload whose `languages` field is present but null makes construction
raise (`None.get`), instead of defaulting to the empty list; a payload with
the field absent constructs fine with all defaults.  (The spec is the
stated intent — section 7 requires null nested objects to resolve to safe
defaults — so this is recorded as a code bug.) -/
theorem c8_entity_construction :
    exceptOk (buildRepository [("languages", JVal.null)]) = false ∧
    exceptOk (buildRepository []) = true ∧
    (∃ r, buildRepository [] = .ok r ∧ r.languages = [] ∧ r.topics = [] ∧
      r.description = .str "" ∧ r.disk_usage = .num 0 ∧
      r.is_private = .bool false) := by
  refine ⟨rfl, rfl, ?_⟩
  refine ⟨_, rfl, rfl, rfl, rfl, rfl, rfl⟩

end OrgSkin
